import Mathlib

/-!
Shallow embedding of the distcache core (a distributed in-memory cache) and
proofs about its specification claims.  The definitions below are translated
from the C++ sources: `src/cache/storage_engine.cpp`, `src/main.cpp`,
`src/replication/replication_manager.cpp`, `src/persistence/wal.cpp`,
`src/persistence/recovery_manager.cpp`, `src/cluster/snapshot_manager.cpp`,
`src/cluster/rebalance_orchestrator.cpp` and
`include/distcache/version_vector.h`.  `std::unordered_map` and `std::map`
values are embedded as association lists, `std::list` as `List`,
`int64_t` as `Int`, `size_t` as `Nat`, byte blobs as `String`.
Wall-clock time is threaded as an explicit `now : Int` parameter.
-/

namespace DistCache

/-! ## Version vectors, from include/distcache/version_vector.h -/

/-- Embedding of `version_vector::VersionVector`
(`std::unordered_map<std::string, int64_t>`) as an association list. -/
abbrev VersionVector := List (String × Int)

/-- The keys (node ids) of a version vector. -/
def vvKeys (v : VersionVector) : List String := v.map Prod.fst

/-- Embedding of `v.count(node_id)` / `v.find(node_id) != v.end()`. -/
def vvContains (v : VersionVector) (n : String) : Bool :=
  v.any (fun p => p.fst == n)

/-- Embedding of `version_vector::GetVersion`: the version for a node,
0 when the node is not present. -/
def GetVersion (v : VersionVector) (n : String) : Int :=
  match v.find? (fun p => p.fst == n) with
  | some p => p.snd
  | none => 0

/-- Embedding of `version_vector::ComparisonResult`. -/
inductive ComparisonResult where
  | EQUAL
  | LESS
  | GREATER
  | CONCURRENT
deriving DecidableEq, Repr

/-- The node list built at the top of `version_vector::Compare`: all keys of
`v1`, then the keys of `v2` that are not keys of `v1`. -/
def allNodes (v1 v2 : VersionVector) : List String :=
  vvKeys v1 ++ (vvKeys v2).filter (fun n => !(vvContains v1 n))

/-- The per-node loop of `version_vector::Compare`, carrying the
`v1_dominates` / `v2_dominates` flags; returns `CONCURRENT` as soon as both
flags are set, and otherwise applies the final classification. -/
def compareAux (v1 v2 : VersionVector) : List String → Bool → Bool → ComparisonResult
  | [], v1d, v2d =>
      if v1d && !v2d then ComparisonResult.GREATER
      else if v2d && !v1d then ComparisonResult.LESS
      else ComparisonResult.EQUAL
  | n :: rest, v1d, v2d =>
      let ver1 := GetVersion v1 n
      let ver2 := GetVersion v2 n
      let v1d := v1d || decide (ver1 > ver2)
      let v2d := v2d || decide (ver2 > ver1)
      if v1d && v2d then ComparisonResult.CONCURRENT
      else compareAux v1 v2 rest v1d v2d

/-- Embedding of `version_vector::Compare`. -/
def Compare (v1 v2 : VersionVector) : ComparisonResult :=
  compareAux v1 v2 (allNodes v1 v2) false false

/-- One step of the loop body of `version_vector::Merge`: either insert the
node of `p` or take the maximum with the version already present. -/
def mergeStep (result : VersionVector) (p : String × Int) : VersionVector :=
  if (result.find? (fun q => q.fst == p.fst)).isSome then
    result.map (fun q => if q.fst == p.fst then (q.fst, max q.snd p.snd) else q)
  else
    result ++ [p]

/-- Embedding of `version_vector::Merge`: start from `v1` and fold the
entries of `v2` into it. -/
def Merge (v1 v2 : VersionVector) : VersionVector :=
  v2.foldl mergeStep v1

/-! ## Cache entries, from include/distcache/cache_entry.h -/

/-- Embedding of `struct CacheEntry`.  The byte-vector value is embedded as a
`String`; the atomic `last_accessed_ms` as a plain field. -/
structure CacheEntry where
  key : String
  value : String
  ttl_seconds : Option Int
  expires_at_ms : Option Int
  version : Int
  created_at_ms : Int
  modified_at_ms : Int
  last_accessed_ms : Int
  version_vector : VersionVector
deriving DecidableEq, Repr

/-- The fixed per-entry metadata overhead `sizeof(CacheEntry)`.  The exact
value is platform-defined; no theorem below depends on it. -/
def sizeofCacheEntry : Nat := 168

/-- Embedding of `CacheEntry::total_size`:
`sizeof(CacheEntry) + key.size() + value.size()`. -/
def CacheEntry.total_size (e : CacheEntry) : Nat :=
  sizeofCacheEntry + e.key.length + e.value.length

/-- Embedding of `CacheEntry::is_expired`: an entry with an expiry strictly
in the past is expired; an entry without an expiry never is. -/
def CacheEntry.is_expired (e : CacheEntry) (now : Int) : Bool :=
  match e.expires_at_ms with
  | none => false
  | some t => now > t

/-- Embedding of the value constructor
`CacheEntry(std::string k, std::vector<uint8_t> v, std::optional<int32_t> ttl)`:
version starts at 1, timestamps at the current time, expiry derived from the
TTL when present. -/
def CacheEntry.fresh (k v : String) (ttl : Option Int) (now : Int) : CacheEntry :=
  { key := k
    value := v
    ttl_seconds := ttl
    expires_at_ms := match ttl with
      | some s => some (now + s * 1000)
      | none => none
    version := 1
    created_at_ms := now
    modified_at_ms := now
    last_accessed_ms := now
    version_vector := [] }

/-! ## The sharded storage engine, from src/cache/storage_engine.cpp

Each shard owns an association list embedding its `std::unordered_map`
(`data`), its LRU list of keys with the most recently used key at the front
(`lru_list`), and its byte counter.  The table carries the global atomic
counters `total_memory_bytes_` and `total_entries_`.  `std::hash` is passed
in as an explicit `hash` parameter. -/

/-- Embedding of `ShardedHashTable::Shard`. -/
structure Shard where
  data : List (String × CacheEntry)
  lru_list : List String
  memory_bytes : Nat
deriving DecidableEq, Repr

/-- An empty shard, as default-constructed. -/
def Shard.empty : Shard :=
  { data := [], lru_list := [], memory_bytes := 0 }

/-- Embedding of `ShardedHashTable` state. -/
structure ShardedHashTable where
  shards : List Shard
  max_memory_bytes : Nat
  total_memory_bytes : Nat
  total_entries : Nat
deriving DecidableEq, Repr

/-- Embedding of the constructor `ShardedHashTable(num_shards, max_memory)`:
`num_shards` empty shards and zeroed counters. -/
def mkTable (num_shards max_memory : Nat) : ShardedHashTable :=
  { shards := List.replicate num_shards Shard.empty
    max_memory_bytes := max_memory
    total_memory_bytes := 0
    total_entries := 0 }

/-- Embedding of `shard.data.find(key)` on the association list: the entry of
the first pair whose key matches. -/
def lookupKey (l : List (String × CacheEntry)) (k : String) : Option CacheEntry :=
  match l.find? (fun p => p.fst == k) with
  | some p => some p.snd
  | none => none

/-- Embedding of `shard.data.erase(it)` where `it = find(key)`: remove the
first pair whose key matches. -/
def eraseKey : List (String × CacheEntry) → String → List (String × CacheEntry)
  | [], _ => []
  | p :: rest, k => if p.fst == k then rest else p :: eraseKey rest k

/-- Embedding of `it->second.entry = entry` where `it = find(key)`: replace
the entry of the first pair whose key matches. -/
def replaceKey : List (String × CacheEntry) → String → CacheEntry → List (String × CacheEntry)
  | [], _, _ => []
  | p :: rest, k, e => if p.fst == k then (p.fst, e) :: rest else p :: replaceKey rest k e

/-- Embedding of the LRU splice
`lru_list.splice(lru_list.begin(), lru_list, iter)`: move the key occurrence
to the front. -/
def moveToFront (l : List String) (k : String) : List String :=
  k :: l.erase k

/-- Embedding of `ShardedHashTable::get_shard_index`:
`std::hash<std::string>{}(key) % shards_.size()`. -/
def shardIdx (hash : String → Nat) (t : ShardedHashTable) (k : String) : Nat :=
  hash k % t.shards.length

/-- The shard at an index (shards are only ever accessed at in-range
indices produced by `shardIdx`). -/
def getShard (t : ShardedHashTable) (i : Nat) : Shard :=
  t.shards.getD i Shard.empty

/-- Embedding of `ShardedHashTable::needs_eviction`:
`total_memory_bytes_ + new_entry_size > max_memory_bytes_`. -/
def needs_eviction (max_memory total_memory new_entry_size : Nat) : Bool :=
  total_memory + new_entry_size > max_memory

/-- The while loop of `ShardedHashTable::evict_if_needed`, operating on the
shard together with the global memory and entry counters.  The fuel argument
is the initial length of the LRU list: each iteration pops the back of the
list, so the loop performs at most that many iterations and the fuel never
runs out before the loop condition turns false. -/
def evictLoop (max_memory required : Nat) :
    Nat → Shard → Nat → Nat → Shard × Nat × Nat
  | 0, s, tm, te => (s, tm, te)
  | fuel + 1, s, tm, te =>
    if needs_eviction max_memory tm required && !s.lru_list.isEmpty then
      match s.lru_list.getLast? with
      | none => (s, tm, te)
      | some lru_key =>
        match lookupKey s.data lru_key with
        | some e =>
          let entry_size := e.total_size
          evictLoop max_memory required fuel
            { data := eraseKey s.data lru_key
              lru_list := s.lru_list.dropLast
              memory_bytes := s.memory_bytes - entry_size }
            (tm - entry_size) (te - 1)
        | none =>
          evictLoop max_memory required fuel
            { s with lru_list := s.lru_list.dropLast } tm te
    else (s, tm, te)

/-- Embedding of `ShardedHashTable::evict_if_needed`. -/
def evict_if_needed (max_memory required : Nat) (s : Shard) (tm te : Nat) :
    Shard × Nat × Nat :=
  evictLoop max_memory required s.lru_list.length s tm te

/-- Embedding of `ShardedHashTable::set`.  An existing key is replaced in
place (no eviction, counters adjusted by the size difference); a new key
first triggers eviction when the memory cap would be exceeded and is then
inserted unconditionally.  The boolean result is the function's return
value. -/
def set (hash : String → Nat) (t : ShardedHashTable) (k : String) (entry : CacheEntry) :
    Bool × ShardedHashTable :=
  let i := shardIdx hash t k
  let shard := getShard t i
  let entry_size := entry.total_size
  match lookupKey shard.data k with
  | some old =>
    let old_size := old.total_size
    let shard1 : Shard :=
      { data := replaceKey shard.data k entry
        lru_list := moveToFront shard.lru_list k
        memory_bytes := shard.memory_bytes - old_size + entry_size }
    (true,
      { shards := t.shards.set i shard1
        max_memory_bytes := t.max_memory_bytes
        total_memory_bytes := t.total_memory_bytes - old_size + entry_size
        total_entries := t.total_entries })
  | none =>
    let evicted :=
      if needs_eviction t.max_memory_bytes t.total_memory_bytes entry_size then
        evict_if_needed t.max_memory_bytes entry_size shard t.total_memory_bytes t.total_entries
      else (shard, t.total_memory_bytes, t.total_entries)
    let shard1 := evicted.fst
    let tm1 := evicted.snd.fst
    let te1 := evicted.snd.snd
    let shard2 : Shard :=
      { data := (k, entry) :: shard1.data
        lru_list := k :: shard1.lru_list
        memory_bytes := shard1.memory_bytes + entry_size }
    (true,
      { shards := t.shards.set i shard2
        max_memory_bytes := t.max_memory_bytes
        total_memory_bytes := tm1 + entry_size
        total_entries := te1 + 1 })

/-- Embedding of `ShardedHashTable::del`. -/
def del (hash : String → Nat) (t : ShardedHashTable) (k : String) :
    Bool × ShardedHashTable :=
  let i := shardIdx hash t k
  let shard := getShard t i
  match lookupKey shard.data k with
  | none => (false, t)
  | some e =>
    let entry_size := e.total_size
    let shard1 : Shard :=
      { data := eraseKey shard.data k
        lru_list := shard.lru_list.erase k
        memory_bytes := shard.memory_bytes - entry_size }
    (true,
      { shards := t.shards.set i shard1
        max_memory_bytes := t.max_memory_bytes
        total_memory_bytes := t.total_memory_bytes - entry_size
        total_entries := t.total_entries - 1 })

/-- Embedding of `ShardedHashTable::get`: a missing or expired key is a miss
and leaves the state unchanged; a hit moves the key to the LRU front,
touches `last_accessed_ms` and returns the entry. -/
def get (hash : String → Nat) (t : ShardedHashTable) (k : String) (now : Int) :
    Option CacheEntry × ShardedHashTable :=
  let i := shardIdx hash t k
  let shard := getShard t i
  match lookupKey shard.data k with
  | none => (none, t)
  | some e =>
    if e.is_expired now then (none, t)
    else
      let touched := { e with last_accessed_ms := now }
      let shard1 : Shard :=
        { data := replaceKey shard.data k touched
          lru_list := moveToFront shard.lru_list k
          memory_bytes := shard.memory_bytes }
      (some touched,
        { t with shards := t.shards.set i shard1 })

/-- Embedding of `ShardedHashTable::CASResult`. -/
structure CASResult where
  success : Bool
  new_version : Int
  actual_version : Int
  error : String
deriving DecidableEq, Repr

/-- Embedding of `ShardedHashTable::compare_and_swap`: fail on a missing key,
an expired entry or a version mismatch without touching the state; on a
match, store the new entry with version `actual + 1` and fresh timestamps. -/
def compare_and_swap (hash : String → Nat) (t : ShardedHashTable) (k : String)
    (expected_version : Int) (new_entry : CacheEntry) (now : Int) :
    CASResult × ShardedHashTable :=
  let i := shardIdx hash t k
  let shard := getShard t i
  match lookupKey shard.data k with
  | none => ({ success := false, new_version := 0, actual_version := 0,
               error := "Key not found" }, t)
  | some e =>
    if e.is_expired now then
      ({ success := false, new_version := 0, actual_version := 0,
         error := "Key expired" }, t)
    else
      let actual_version := e.version
      if actual_version ≠ expected_version then
        ({ success := false, new_version := 0, actual_version := actual_version,
           error := "Version mismatch" }, t)
      else
        let old_size := e.total_size
        let stored := { new_entry with
          version := actual_version + 1
          modified_at_ms := now
          last_accessed_ms := now }
        let new_size := stored.total_size
        let shard1 : Shard :=
          { data := replaceKey shard.data k stored
            lru_list := moveToFront shard.lru_list k
            memory_bytes := shard.memory_bytes - old_size + new_size }
        ({ success := true, new_version := actual_version + 1, actual_version := 0,
           error := "" },
          { shards := t.shards.set i shard1
            max_memory_bytes := t.max_memory_bytes
            total_memory_bytes := t.total_memory_bytes - old_size + new_size
            total_entries := t.total_entries })

/-- Embedding of `ShardedHashTable::exists`. -/
def existsKey (hash : String → Nat) (t : ShardedHashTable) (k : String) (now : Int) : Bool :=
  let shard := getShard t (shardIdx hash t k)
  match lookupKey shard.data k with
  | none => false
  | some e => !e.is_expired now

/-- Embedding of `ShardedHashTable::size`: the global entry counter. -/
def size (t : ShardedHashTable) : Nat := t.total_entries

/-- Embedding of `ShardedHashTable::memory_usage`: the global byte counter. -/
def memory_usage (t : ShardedHashTable) : Nat := t.total_memory_bytes

/-- Embedding of `ShardedHashTable::clear`: every shard is emptied and the
global counters are zeroed. -/
def clear (t : ShardedHashTable) : ShardedHashTable :=
  { shards := t.shards.map (fun _ => Shard.empty)
    max_memory_bytes := t.max_memory_bytes
    total_memory_bytes := 0
    total_entries := 0 }

/-- Embedding of `ShardedHashTable::for_each`: the non-expired entries, in
shard order. -/
def engineEntries (t : ShardedHashTable) (now : Int) : List (String × CacheEntry) :=
  t.shards.foldr (fun s acc => s.data.filter (fun p => !(p.snd.is_expired now)) ++ acc) []

/-! ## The gRPC cache service, from src/main.cpp -/

/-- Embedding of the `SetResponse` fields filled by `CacheServiceImpl::Set`. -/
structure SetResponse where
  success : Bool
  version : Int
deriving DecidableEq, Repr

/-- Embedding of `CacheServiceImpl::Set` (validation and auth disabled, as by
default): build a fresh `CacheEntry` from the request and store it with
`storage_.set`; the response version is the hard-coded constant 1
(`response->set_version(1)` next to a versioning TODO in the source). -/
def serverSet (hash : String → Nat) (t : ShardedHashTable)
    (key value : String) (ttl : Option Int) (now : Int) :
    SetResponse × ShardedHashTable :=
  let entry := CacheEntry.fresh key value ttl now
  let res := set hash t key entry
  ({ success := res.fst, version := 1 }, res.snd)

/-! ## The replication pipeline, from src/replication/replication_manager.cpp -/

/-- Embedding of `v1::ReplicationEntry::Op`. -/
inductive RepOp where
  | SET
  | DELETE
deriving DecidableEq, Repr

/-- Embedding of `ReplicationManager::QueuedEntry` (the enqueue timestamp is
dropped; nothing reads it). -/
structure QueuedEntry where
  op : RepOp
  key : String
  value : String
  ttl_seconds : Int
  version : Int
deriving DecidableEq, Repr

/-- Embedding of `ReplicationManager::QueueWrite`: when the queue already
holds `max_queue_size` entries the incoming write is dropped with a warning
and `false` is returned; otherwise the entry is pushed at the back. -/
def QueueWrite (max_queue_size : Nat) (queue : List QueuedEntry)
    (key value : String) (ttl_seconds version : Int) : Bool × List QueuedEntry :=
  if queue.length ≥ max_queue_size then (false, queue)
  else (true, queue ++ [{ op := RepOp.SET, key := key, value := value,
                          ttl_seconds := ttl_seconds, version := version }])

/-- Embedding of `ReplicationManager::QueueDelete`, with the same overflow
policy as `QueueWrite`. -/
def QueueDelete (max_queue_size : Nat) (queue : List QueuedEntry)
    (key : String) (version : Int) : Bool × List QueuedEntry :=
  if queue.length ≥ max_queue_size then (false, queue)
  else (true, queue ++ [{ op := RepOp.DELETE, key := key, value := "",
                          ttl_seconds := 0, version := version }])

/-- Embedding of one wire `v1::ReplicationEntry`. -/
structure ReplicationEntry where
  op : RepOp
  key : String
  value : String
  ttl_seconds : Int
  version : Int
deriving DecidableEq, Repr

/-- Embedding of the per-entry body of `ReplicationServiceImpl::Replicate`.
A SET builds a `CacheEntry` from the wire entry (default-constructed, then
`value`, positive `ttl_seconds`, `version`, `created_at_ms` and
`last_accessed_ms` are assigned; `key` and `expires_at_ms` are left at their
defaults) and applies it with `storage_->set`; a DELETE applies
`storage_->del` and counts as applied either way. -/
def applyReplicationEntry (hash : String → Nat) (t : ShardedHashTable)
    (entry : ReplicationEntry) (now : Int) : Bool × ShardedHashTable :=
  match entry.op with
  | RepOp.SET =>
    let cache_entry : CacheEntry :=
      { key := ""
        value := entry.value
        ttl_seconds := if entry.ttl_seconds > 0 then some entry.ttl_seconds else none
        expires_at_ms := none
        version := entry.version
        created_at_ms := now
        modified_at_ms := 0
        last_accessed_ms := now
        version_vector := [] }
    set hash t entry.key cache_entry
  | RepOp.DELETE =>
    (true, (del hash t entry.key).snd)

/-- Embedding of the loop of `ReplicationServiceImpl::Replicate` over a
batch: entries applied in order to the follower engine. -/
def Replicate (hash : String → Nat) (t : ShardedHashTable)
    (entries : List ReplicationEntry) (now : Int) : ShardedHashTable :=
  entries.foldl (fun acc e => (applyReplicationEntry hash acc e now).snd) t

/-! ## The write-ahead log, from src/persistence/wal.cpp -/

/-- Embedding of the `WAL::Config` fields `AppendEntry` reads. -/
structure WALConfig where
  max_file_size_bytes : Nat
  sync_on_write : Bool
deriving DecidableEq, Repr

/-- Embedding of the WAL state touched by `AppendEntry`:
the open flag, the `last_sequence_` counter, the current file size and the
written-entries and rotation counters. -/
structure WALState where
  is_open : Bool
  last_sequence : Int
  current_file_size : Nat
  total_entries_written : Nat
  total_rotations : Nat
deriving DecidableEq, Repr

/-- Outcomes of the file-system operations performed inside one
`WAL::AppendEntry` call, which the code itself cannot control: whether the
new file opens during `RotateLog`, whether serialisation and the write in
`WriteEntryToFile` succeed, and the serialised sizes of the rotated-file
header and of the record. -/
structure WALEnv where
  rotate_open_ok : Bool
  write_ok : Bool
  header_bytes : Nat
  entry_bytes : Nat
deriving DecidableEq, Repr

/-- Embedding of `WAL::ShouldRotate`:
`current_file_size_ >= max_file_size_bytes`. -/
def ShouldRotate (cfg : WALConfig) (w : WALState) : Bool :=
  w.current_file_size ≥ cfg.max_file_size_bytes

/-- Embedding of `WAL::RotateLog`: on failure to open the new file the WAL is
marked closed and `false` returned; on success the file size restarts at the
4-byte length prefix plus the header. -/
def RotateLog (env : WALEnv) (w : WALState) : Bool × WALState :=
  if !env.rotate_open_ok then (false, { w with is_open := false })
  else (true, { w with
    current_file_size := 4 + env.header_bytes
    total_rotations := w.total_rotations + 1 })

/-- Embedding of `WAL::AppendEntry`.  A closed WAL fails immediately.
Otherwise the record is numbered with `last_sequence_.fetch_add(1) + 1`
before rotation and the write are attempted; a rotation or write failure
returns `false` with the counter already advanced.  `Sync` cannot fail once
the write succeeded (it only flushes), so the sync-on-write branch returns
`true`. -/
def AppendEntry (cfg : WALConfig) (env : WALEnv) (w : WALState) : Bool × WALState :=
  if !w.is_open then (false, w)
  else
    let w1 := { w with last_sequence := w.last_sequence + 1 }
    let rot := if ShouldRotate cfg w1 then RotateLog env w1 else (true, w1)
    if !rot.fst then (false, rot.snd)
    else if !env.write_ok then (false, rot.snd)
    else
      let w2 := { rot.snd with
        current_file_size := rot.snd.current_file_size + 4 + env.entry_bytes
        total_entries_written := rot.snd.total_entries_written + 1 }
      (true, w2)

/-! ## Snapshots and recovery, from src/cluster/snapshot_manager.cpp and
src/persistence/recovery_manager.cpp -/

/-- Embedding of `SnapshotManager::SnapshotMetadata`. -/
structure SnapshotMetadata where
  snapshot_id : String
  timestamp : Int
  num_keys : Nat
  node_id : String
  checksum : String
deriving DecidableEq, Repr

/-- Insertion into a timestamp-descending list, matching the comparator
`a.timestamp > b.timestamp` handed to `std::sort`. -/
def insertDesc (m : SnapshotMetadata) : List SnapshotMetadata → List SnapshotMetadata
  | [] => [m]
  | x :: xs => if m.timestamp > x.timestamp then m :: x :: xs else x :: insertDesc m xs

/-- Sorting of the snapshot list by timestamp descending, as performed in
`RecoveryManager::RestoreSnapshot`. -/
def sortByTimestampDesc : List SnapshotMetadata → List SnapshotMetadata
  | [] => []
  | x :: xs => insertDesc x (sortByTimestampDesc xs)

/-- Embedding of `SnapshotManager::GetSnapshotMetadata`: find the metadata
with the given id. -/
def GetSnapshotMetadata (snapshots : List SnapshotMetadata) (snapshot_id : String) :
    Option SnapshotMetadata :=
  snapshots.find? (fun m => m.snapshot_id == snapshot_id)

/-- Embedding of `SnapshotManager::RestoreFromSnapshot`.  The file system is
abstracted as `readFile`, mapping a snapshot id to the entry list parsed by
`ReadSnapshotFromFile`, or `none` when opening or parsing the file fails.
Entries of a readable file are installed with `storage_->set`; the stored
checksum is never consulted. -/
def RestoreFromSnapshot (hash : String → Nat) (snapshots : List SnapshotMetadata)
    (readFile : String → Option (List (String × CacheEntry)))
    (t : ShardedHashTable) (snapshot_id : String) : Bool × ShardedHashTable :=
  match GetSnapshotMetadata snapshots snapshot_id with
  | none => (false, t)
  | some metadata =>
    match readFile metadata.snapshot_id with
    | none => (false, t)
    | some entries =>
      (true, entries.foldl (fun acc p => (set hash acc p.fst p.snd).snd) t)

/-- Embedding of `RecoveryManager::RestoreSnapshot`: with no snapshots,
return `false`; otherwise sort by timestamp descending and attempt only
`snapshots[0]`, the newest. -/
def RestoreSnapshot (hash : String → Nat) (snapshots : List SnapshotMetadata)
    (readFile : String → Option (List (String × CacheEntry)))
    (t : ShardedHashTable) : Bool × ShardedHashTable :=
  match sortByTimestampDesc snapshots with
  | [] => (false, t)
  | latest :: _ => RestoreFromSnapshot hash snapshots readFile t latest.snapshot_id

/-! ## The rebalance orchestrator, from src/cluster/rebalance_orchestrator.cpp

The two hash rings are abstracted as `oldRing, newRing : String → Option
String`, each mapping a key to `HashRing::get_node(key)`, the id of its
primary owner. -/

/-- Appending a key to its migration path inside the
`std::map<std::pair<...>, std::vector<...>>` built by
`group_keys_by_migration_path`. -/
def insertPath (paths : List ((String × String) × List String))
    (p : String × String) (k : String) : List ((String × String) × List String) :=
  match paths with
  | [] => [(p, [k])]
  | (q, ks) :: rest =>
    if q = p then (q, ks ++ [k]) :: rest else (q, ks) :: insertPath rest p k

/-- The body of the loop of `group_keys_by_migration_path`, on the resolved
owners: a key contributes to the path `(old owner, new owner)` only when
both rings resolve it and the owners differ; all other keys are skipped. -/
def groupStepAux (paths : List ((String × String) × List String)) (key : String) :
    Option String → Option String → List ((String × String) × List String)
  | some o, some n => if o ≠ n then insertPath paths (o, n) key else paths
  | _, _ => paths

/-- One iteration of the loop of `group_keys_by_migration_path`: resolve the
key in both rings and dispatch on the outcome. -/
def groupStep (oldRing newRing : String → Option String)
    (paths : List ((String × String) × List String)) (key : String) :
    List ((String × String) × List String) :=
  groupStepAux paths key (oldRing key) (newRing key)

/-- Embedding of `RebalanceOrchestrator::group_keys_by_migration_path`. -/
def group_keys_by_migration_path (oldRing newRing : String → Option String)
    (keys : List String) : List ((String × String) × List String) :=
  keys.foldl (groupStep oldRing newRing) []

/-- Embedding of the key-collection and grouping phase of
`RebalanceOrchestrator::start_drain`: every key the engine currently holds
(via `for_each`) is collected, then grouped by migration path; one job is
spawned per resulting path. -/
def start_drain_paths (oldRing newRing : String → Option String)
    (t : ShardedHashTable) (now : Int) : List ((String × String) × List String) :=
  group_keys_by_migration_path oldRing newRing ((engineEntries t now).map Prod.fst)

/-! ## Derived notions used to state the claims -/

/-- One engine operation, for quantifying over operation sequences. -/
inductive EngineOp where
  | opSet (k : String) (e : CacheEntry)
  | opDel (k : String)
  | opGet (k : String) (now : Int)
  | opCas (k : String) (expected : Int) (e : CacheEntry) (now : Int)
  | opClear
deriving Repr

/-- Run one engine operation for its state effect. -/
def runOp (hash : String → Nat) (t : ShardedHashTable) : EngineOp → ShardedHashTable
  | EngineOp.opSet k e => (set hash t k e).snd
  | EngineOp.opDel k => (del hash t k).snd
  | EngineOp.opGet k now => (get hash t k now).snd
  | EngineOp.opCas k expected e now => (compare_and_swap hash t k expected e now).snd
  | EngineOp.opClear => clear t

/-- Run a sequence of engine operations. -/
def runOps (hash : String → Nat) (t : ShardedHashTable) (ops : List EngineOp) :
    ShardedHashTable :=
  ops.foldl (runOp hash) t

/-- The number of entries physically present in a shard map. -/
def shardEntryCount (s : Shard) : Nat := s.data.length

/-- The sum of `total_size` over the entries of an association list. -/
def sumSizes (l : List (String × CacheEntry)) : Nat :=
  (l.map (fun p => p.snd.total_size)).sum

/-- The sum of `total_size` over the entries physically present in a shard
map. -/
def shardMemSum (s : Shard) : Nat := sumSizes s.data

/-- The number of entries physically stored across all shard maps (expired
entries included: nothing removes them lazily). -/
def entriesStored (t : ShardedHashTable) : Nat :=
  (t.shards.map shardEntryCount).sum

/-- The sum of `total_size` over all physically stored entries. -/
def memStored (t : ShardedHashTable) : Nat :=
  (t.shards.map shardMemSum).sum

/-- The counter-accuracy property of claim C10: the global atomic counters
reported by `size()` and `memory_usage()` agree with the physical shard
contents. -/
def CountersAccurate (t : ShardedHashTable) : Prop :=
  size t = entriesStored t ∧ memory_usage t = memStored t

/-- Well-formedness carried through the engine-invariant induction: accurate
counters, a nonempty shard vector (the constructor divides by it) and
duplicate-free keys per shard map. -/
def TableWF (t : ShardedHashTable) : Prop :=
  CountersAccurate t ∧ 0 < t.shards.length ∧
    ∀ s ∈ t.shards, (s.data.map Prod.fst).Nodup

/-- One version vector strictly exceeds another somewhere (with absent
entries counting as 0). -/
def Dom (a b : VersionVector) : Prop :=
  ∃ n, GetVersion a n > GetVersion b n

/-- Domination in the sense of the claim: everywhere at least as large and
somewhere strictly larger (absent entries counting as 0). -/
def Dominates (a b : VersionVector) : Prop :=
  (∀ n, GetVersion b n ≤ GetVersion a n) ∧ (∃ n, GetVersion a n > GetVersion b n)

/-- Pointwise equality of version vectors (absent entries counting as 0). -/
def PointwiseEq (a b : VersionVector) : Prop :=
  ∀ n, GetVersion a n = GetVersion b n

/-- The classification `Compare` produces from its two dominance flags. -/
def mkCompareResult (d1 d2 : Bool) : ComparisonResult :=
  if d1 && d2 then ComparisonResult.CONCURRENT
  else if d1 then ComparisonResult.GREATER
  else if d2 then ComparisonResult.LESS
  else ComparisonResult.EQUAL

/-! ## Concrete instances used by witnesses and counterexamples -/

/-- A trivial shard hash (everything in shard 0). -/
def hash0 : String → Nat := fun _ => 0

/-- A single-shard table holding a live entry under "k" (version 1) and an
entry under "exp" that is expired at time 2000. -/
def casTable : ShardedHashTable :=
  (set hash0 (set hash0 (mkTable 1 1000000) "k" (CacheEntry.fresh "k" "v" none 0)).snd
    "exp" (CacheEntry.fresh "exp" "v" (some 1) 0)).snd

/-- A single-shard table holding the keys "a" and "b". -/
def drainTable : ShardedHashTable :=
  (set hash0 (set hash0 (mkTable 1 1000000) "a" (CacheEntry.fresh "a" "va" none 0)).snd
    "b" (CacheEntry.fresh "b" "vb" none 0)).snd

/-- The old ring for the drain counterexample: every key is owned by n1. -/
def drainOldRing : String → Option String := fun _ => some "n1"

/-- The new ring for the drain counterexample: "b" moves to n2, every other
key keeps its owner n1. -/
def drainNewRing : String → Option String :=
  fun k => if k = "b" then some "n2" else some "n1"

/-- A single-shard table holding "k" at version 5, the prior state of the
follower in the replication counterexample. -/
def followerTable : ShardedHashTable :=
  (set hash0 (mkTable 1 1000000) "k"
    { key := "k", value := "v1", ttl_seconds := none, expires_at_ms := none,
      version := 5, created_at_ms := 0, modified_at_ms := 0, last_accessed_ms := 0,
      version_vector := [] }).snd

/-- Metadata of the readable, intact snapshot "old" (timestamp 1) in the
recovery counterexample. -/
def oldSnapshotMeta : SnapshotMetadata :=
  { snapshot_id := "old", timestamp := 1, num_keys := 1, node_id := "n",
    checksum := "cafebabe" }

/-- Metadata of the newest snapshot "new" (timestamp 2) in the recovery
counterexample; its file cannot be read, so its checksum cannot validate
either. -/
def newSnapshotMeta : SnapshotMetadata :=
  { snapshot_id := "new", timestamp := 2, num_keys := 1, node_id := "n",
    checksum := "deadbeef" }

/-- The snapshot list for the recovery counterexample. -/
def recoverySnapshots : List SnapshotMetadata :=
  [oldSnapshotMeta, newSnapshotMeta]

/-- The abstracted snapshot directory for the recovery counterexample: the
file of "old" parses to one entry, the file of "new" is corrupt. -/
def recoveryReadFile : String → Option (List (String × CacheEntry)) :=
  fun id => if id = "old" then some [("k", CacheEntry.fresh "k" "v" none 0)] else none

/-- A representative operation sequence for the counter-invariant witness:
inserts that trigger LRU eviction under a 400-byte cap, a replacement, a
successful and a failing CAS, hits and misses, a clear, and a read of an
expired entry. -/
def wOps : List EngineOp :=
  [ EngineOp.opSet "a" (CacheEntry.fresh "a" "1" none 0),
    EngineOp.opSet "b" (CacheEntry.fresh "b" "2" none 10),
    EngineOp.opSet "c" (CacheEntry.fresh "c" "3" none 20),
    EngineOp.opSet "b" (CacheEntry.fresh "b" "2x" none 30),
    EngineOp.opCas "c" 1 (CacheEntry.fresh "c" "3y" none 40) 40,
    EngineOp.opCas "zz" 1 (CacheEntry.fresh "zz" "z" none 50) 50,
    EngineOp.opGet "b" 60,
    EngineOp.opClear,
    EngineOp.opSet "d" (CacheEntry.fresh "d" "4" (some 1) 70),
    EngineOp.opGet "d" 2000 ]

/-! ## Association-list lemmas -/

theorem lookupKey_cons_self (k : String) (e : CacheEntry) (l : List (String × CacheEntry)) :
    lookupKey ((k, e) :: l) k = some e := by
  simp [lookupKey, List.find?]

theorem lookupKey_replaceKey_self (l : List (String × CacheEntry)) (k : String)
    (e cur : CacheEntry) (h : lookupKey l k = some cur) :
    lookupKey (replaceKey l k e) k = some e := by
  induction l with
  | nil => simp [lookupKey] at h
  | cons p rest ih =>
    rcases p with ⟨a, b⟩
    by_cases hak : a = k
    · subst hak
      simp [replaceKey, lookupKey, List.find?]
    · have hbeq : (a == k) = false := beq_eq_false_iff_ne.mpr hak
      simp only [replaceKey, hbeq, Bool.false_eq_true, if_false]
      simp only [lookupKey, List.find?, hbeq] at h ⊢
      exact ih h

theorem getD_set_self {α : Type} (l : List α) (i : Nat) (a d : α) (h : i < l.length) :
    (l.set i a).getD i d = a := by
  induction l generalizing i with
  | nil => simp at h
  | cons x xs ih =>
    cases i with
    | zero => rfl
    | succ n =>
      simp only [List.set, List.getD_cons_succ]
      exact ih n (by simpa using h)

/-- After a `set`, the key is present in its shard with exactly the entry
that was passed in: both the replace path and the insert path store the
argument unchanged. -/
theorem lookupKey_after_set (hash : String → Nat) (t : ShardedHashTable) (k : String)
    (e : CacheEntry) (h : 0 < t.shards.length) :
    lookupKey (getShard (set hash t k e).snd (shardIdx hash (set hash t k e).snd k)).data k
      = some e := by
  have hi : hash k % t.shards.length < t.shards.length := Nat.mod_lt _ h
  cases hl : lookupKey (getShard t (shardIdx hash t k)).data k with
  | some old =>
    simp only [set, hl]
    simp only [shardIdx, List.length_set, getShard]
    rw [getD_set_self _ _ _ _ hi]
    exact lookupKey_replaceKey_self _ _ _ _ hl
  | none =>
    simp only [set, hl]
    simp only [shardIdx, List.length_set, getShard]
    rw [getD_set_self _ _ _ _ hi]
    exact lookupKey_cons_self _ _ _

/-! ## Claim C1: SET versioning (src/main.cpp, storage_engine.cpp) -/

/-- Claim C1.  The claim states that a SET replacing an existing entry stores
it with version prior + 1, so that after SET("user:1","Alice") then
SET("user:1","Bob") a GET returns version 2.  Evaluating the embedded code at
exactly this input shows the stored and returned version is 1 after both
SETs: `CacheServiceImpl::Set` always builds a fresh entry with version 1 and
`ShardedHashTable::set` stores it as-is, and the response version is the
hard-coded 1 (the versioning TODO in the source). -/
theorem C1_second_set_keeps_version_one :
    ((get hash0
        (serverSet hash0 (serverSet hash0 (mkTable 4 1000000) "user:1" "Alice" none 100).snd
          "user:1" "Bob" none 200).snd
        "user:1" 300).fst.map CacheEntry.version = some 1) ∧
    ((get hash0
        (serverSet hash0 (serverSet hash0 (mkTable 4 1000000) "user:1" "Alice" none 100).snd
          "user:1" "Bob" none 200).snd
        "user:1" 300).fst.map CacheEntry.value = some "Bob") ∧
    ((serverSet hash0 (serverSet hash0 (mkTable 4 1000000) "user:1" "Alice" none 100).snd
        "user:1" "Bob" none 200).fst.version = 1) := by
  decide

/-! ## Claim C5: replication queue overflow
(src/replication/replication_manager.cpp) -/

/-- Claim C5, counterexample.  With the queue at its configured maximum
(size 1), enqueuing a new write returns false and leaves the queue unchanged:
the incoming entry is dropped and the oldest entry is retained, not the other
way round as the claim states. -/
theorem C5_counterexample :
    QueueWrite 1
        [{ op := RepOp.SET, key := "a", value := "1", ttl_seconds := 0, version := 1 }]
        "b" "2" 0 2 =
      (false,
        [{ op := RepOp.SET, key := "a", value := "1", ttl_seconds := 0, version := 1 }]) := by
  decide

/-- Claim C5, amended.  When a mutation is enqueued on a full replication
queue, the new entry is rejected (`QueueWrite` / `QueueDelete` return false
after logging a warning) and the queue is left unchanged; the oldest queued
entry is retained. -/
theorem C5_full_queue_rejects_new (max_queue_size : Nat) (queue : List QueuedEntry)
    (key value : String) (ttl_seconds version : Int)
    (h : queue.length ≥ max_queue_size) :
    QueueWrite max_queue_size queue key value ttl_seconds version = (false, queue) ∧
    QueueDelete max_queue_size queue key version = (false, queue) := by
  constructor <;> simp [QueueWrite, QueueDelete, h]

/-- Witness for C5_full_queue_rejects_new at a concrete full queue. -/
theorem C5_full_queue_rejects_new_witness :
    QueueWrite 1
        [{ op := RepOp.SET, key := "a", value := "1", ttl_seconds := 0, version := 1 }]
        "c" "3" 0 2 =
      (false,
        [{ op := RepOp.SET, key := "a", value := "1", ttl_seconds := 0, version := 1 }]) ∧
    QueueDelete 1
        [{ op := RepOp.SET, key := "a", value := "1", ttl_seconds := 0, version := 1 }]
        "c" 2 =
      (false,
        [{ op := RepOp.SET, key := "a", value := "1", ttl_seconds := 0, version := 1 }]) :=
  C5_full_queue_rejects_new 1
    [{ op := RepOp.SET, key := "a", value := "1", ttl_seconds := 0, version := 1 }]
    "c" "3" 0 2 (by decide)

/-! ## Claim C6: storing an entry that cannot fit under the cap
(src/cache/storage_engine.cpp) -/

/-- Claim C6, counterexample.  A fresh entry of total size 170 inserted into
an empty engine whose memory cap is 10 is stored anyway: `set` returns true,
the entry is present afterwards, and `memory_usage` exceeds the cap — there
is no RESOURCE_EXHAUSTED failure. -/
theorem C6_counterexample :
    (set hash0 (mkTable 1 10) "k" (CacheEntry.fresh "k" "v" none 0)).fst = true ∧
    lookupKey (getShard (set hash0 (mkTable 1 10) "k" (CacheEntry.fresh "k" "v" none 0)).snd 0).data
        "k" = some (CacheEntry.fresh "k" "v" none 0) ∧
    memory_usage (set hash0 (mkTable 1 10) "k" (CacheEntry.fresh "k" "v" none 0)).snd = 170 := by
  decide

/-- Claim C6, amended.  `ShardedHashTable::set` never fails: after evicting
what it can from the shard it inserts the new entry unconditionally and
returns true, so an entry larger than the memory cap is stored and
`memory_usage` may exceed the cap. -/
theorem C6_set_never_fails (hash : String → Nat) (t : ShardedHashTable)
    (k : String) (e : CacheEntry) : (set hash t k e).fst = true := by
  cases h : lookupKey (getShard t (shardIdx hash t k)).data k <;> simp [set, h]

/-! ## Claim C7: WAL sequence numbering on failed appends
(src/persistence/wal.cpp) -/

/-- Claim C7, counterexample.  An append on an open WAL whose file write
fails returns false but has already advanced `last_sequence_` from 5 to 6:
the counter is advanced on a failing append and the failed number leaves a
gap, contradicting the claim. -/
theorem C7_counterexample :
    AppendEntry { max_file_size_bytes := 100, sync_on_write := true }
        { rotate_open_ok := true, write_ok := false, header_bytes := 10, entry_bytes := 20 }
        { is_open := true, last_sequence := 5, current_file_size := 0,
          total_entries_written := 0, total_rotations := 0 } =
      (false,
        { is_open := true, last_sequence := 6, current_file_size := 0,
          total_entries_written := 0, total_rotations := 0 }) := by
  decide

/-- Claim C7, amended.  An append on a WAL that is not open fails without
advancing the sequence counter; but every append attempted on an open WAL
advances the counter by one — also when the append then fails in rotation or
in the file write — so a failed append on an open WAL skips a sequence
number. -/
theorem C7_append_advances_sequence (cfg : WALConfig) (env : WALEnv) (w : WALState) :
    (w.is_open = false → AppendEntry cfg env w = (false, w)) ∧
    (w.is_open = true → (AppendEntry cfg env w).snd.last_sequence = w.last_sequence + 1) := by
  obtain ⟨o, ls, cfs, tew, tr⟩ := w
  constructor
  · intro h
    simp only at h
    subst h
    simp [AppendEntry]
  · intro h
    simp only at h
    subst h
    simp only [AppendEntry]
    by_cases h1 : ShouldRotate cfg ⟨true, ls + 1, cfs, tew, tr⟩ <;>
      by_cases h2 : env.rotate_open_ok <;>
        by_cases h3 : env.write_ok <;>
          simp [RotateLog, h1, h2, h3]

/-! ## Claim C4: follower version-regression guard
(src/replication/replication_manager.cpp) -/

/-- Claim C4, counterexample.  A follower storing "k" at version 5 receives
a replicated SET for "k" carrying version 3.  `ReplicationServiceImpl::
Replicate` applies it with a plain `storage_->set`, so afterwards the stored
version is 3: the entry was not rejected and the stored version decreased. -/
theorem C4_counterexample :
    (lookupKey (getShard followerTable 0).data "k").map CacheEntry.version = some 5 ∧
    (lookupKey (getShard (Replicate hash0 followerTable
        [{ op := RepOp.SET, key := "k", value := "v2", ttl_seconds := 0, version := 3 }]
        50) 0).data "k").map CacheEntry.version = some 3 := by
  decide

/-- Claim C4, amended.  A follower applies every replicated SET entry
unconditionally: the entry is stored with the sender's version field — also
when that version is older than the version currently stored for the key —
so stored versions can regress under replication.  There is no version
comparison anywhere on the apply path. -/
theorem C4_follower_applies_any_version (hash : String → Nat) (t : ShardedHashTable)
    (entry : ReplicationEntry) (now : Int) (h : 0 < t.shards.length)
    (hop : entry.op = RepOp.SET) :
    (lookupKey (getShard (applyReplicationEntry hash t entry now).snd
        (shardIdx hash (applyReplicationEntry hash t entry now).snd entry.key)).data
      entry.key).map CacheEntry.version = some entry.version := by
  simp only [applyReplicationEntry, hop]
  rw [lookupKey_after_set hash t entry.key _ h]
  rfl

/-- Witness for C4_follower_applies_any_version: the follower that stores
"k" at version 5 ends up with version 3 after applying the wire entry. -/
theorem C4_follower_applies_any_version_witness :
    (lookupKey (getShard (applyReplicationEntry hash0 followerTable
        { op := RepOp.SET, key := "k", value := "v2", ttl_seconds := 0, version := 3 } 50).snd
        (shardIdx hash0 (applyReplicationEntry hash0 followerTable
          { op := RepOp.SET, key := "k", value := "v2", ttl_seconds := 0, version := 3 } 50).snd
          "k")).data "k").map CacheEntry.version = some 3 :=
  C4_follower_applies_any_version hash0 followerTable
    { op := RepOp.SET, key := "k", value := "v2", ttl_seconds := 0, version := 3 } 50
    (by decide) rfl

/-! ## Claim C2: compare_and_swap outcomes (src/cache/storage_engine.cpp) -/

/-- Claim C2.  `compare_and_swap` has exactly four outcomes: a missing key
fails with new version 0 and actual version 0; an expired entry fails the
same way; a version mismatch fails and reports the actual stored version;
and a match succeeds, storing the new entry with version prior + 1 and
returning that version.  In each failing outcome the returned engine state
is exactly the input state. -/
theorem C2_cas_outcomes (hash : String → Nat) (t : ShardedHashTable) (k : String)
    (expected : Int) (e : CacheEntry) (now : Int) :
    (lookupKey (getShard t (shardIdx hash t k)).data k = none →
      compare_and_swap hash t k expected e now =
        ({ success := false, new_version := 0, actual_version := 0,
           error := "Key not found" }, t)) ∧
    (∀ cur, lookupKey (getShard t (shardIdx hash t k)).data k = some cur →
      cur.is_expired now = true →
      compare_and_swap hash t k expected e now =
        ({ success := false, new_version := 0, actual_version := 0,
           error := "Key expired" }, t)) ∧
    (∀ cur, lookupKey (getShard t (shardIdx hash t k)).data k = some cur →
      cur.is_expired now = false → cur.version ≠ expected →
      compare_and_swap hash t k expected e now =
        ({ success := false, new_version := 0, actual_version := cur.version,
           error := "Version mismatch" }, t)) ∧
    (∀ cur, lookupKey (getShard t (shardIdx hash t k)).data k = some cur →
      cur.is_expired now = false → cur.version = expected →
      (compare_and_swap hash t k expected e now).fst =
        { success := true, new_version := cur.version + 1, actual_version := 0,
          error := "" } ∧
      lookupKey (getShard (compare_and_swap hash t k expected e now).snd
          (shardIdx hash (compare_and_swap hash t k expected e now).snd k)).data k =
        some { e with version := cur.version + 1, modified_at_ms := now,
                      last_accessed_ms := now }) := by
  refine ⟨?_, ?_, ?_, ?_⟩
  · intro h
    simp [compare_and_swap, h]
  · intro cur h hexp
    simp [compare_and_swap, h, hexp]
  · intro cur h hexp hver
    simp [compare_and_swap, h, hexp, hver]
  · intro cur h hexp hver
    have hlen : 0 < t.shards.length := by
      rcases hs : t.shards with _ | ⟨s, rest⟩
      · simp [getShard, hs, Shard.empty, lookupKey] at h
      · simp [hs]
    have hi : hash k % t.shards.length < t.shards.length := Nat.mod_lt _ hlen
    constructor
    · simp [compare_and_swap, h, hexp, hver]
    · simp only [compare_and_swap, h]
      rw [if_neg (by simp [hexp] : ¬(cur.is_expired now = true))]
      rw [if_neg (not_not_intro hver)]
      simp only [shardIdx, List.length_set, getShard]
      rw [getD_set_self _ _ _ _ hi]
      simp only [getShard, shardIdx] at h
      exact lookupKey_replaceKey_self _ _ _ _ h

/-- Witness for C2_cas_outcomes: each of the four outcomes exercised on the
concrete table casTable (holding "k" at version 1 and the expired key
"exp") at time 2000. -/
theorem C2_cas_outcomes_witness :
    compare_and_swap hash0 casTable "zzz" 1 (CacheEntry.fresh "k" "w" none 2000) 2000 =
      ({ success := false, new_version := 0, actual_version := 0,
         error := "Key not found" }, casTable) ∧
    compare_and_swap hash0 casTable "exp" 1 (CacheEntry.fresh "k" "w" none 2000) 2000 =
      ({ success := false, new_version := 0, actual_version := 0,
         error := "Key expired" }, casTable) ∧
    compare_and_swap hash0 casTable "k" 7 (CacheEntry.fresh "k" "w" none 2000) 2000 =
      ({ success := false, new_version := 0, actual_version := 1,
         error := "Version mismatch" }, casTable) ∧
    ((compare_and_swap hash0 casTable "k" 1 (CacheEntry.fresh "k" "w" none 2000) 2000).fst =
      { success := true, new_version := 2, actual_version := 0, error := "" } ∧
      lookupKey (getShard (compare_and_swap hash0 casTable "k" 1
          (CacheEntry.fresh "k" "w" none 2000) 2000).snd
          (shardIdx hash0 (compare_and_swap hash0 casTable "k" 1
            (CacheEntry.fresh "k" "w" none 2000) 2000).snd "k")).data "k" =
        some { CacheEntry.fresh "k" "w" none 2000 with
               version := 2, modified_at_ms := 2000, last_accessed_ms := 2000 }) := by
  refine ⟨?_, ?_, ?_, ?_⟩
  · exact (C2_cas_outcomes hash0 casTable "zzz" 1
      (CacheEntry.fresh "k" "w" none 2000) 2000).1 (by decide)
  · exact (C2_cas_outcomes hash0 casTable "exp" 1
      (CacheEntry.fresh "k" "w" none 2000) 2000).2.1
      (CacheEntry.fresh "exp" "v" (some 1) 0) (by decide) (by decide)
  · exact (C2_cas_outcomes hash0 casTable "k" 7
      (CacheEntry.fresh "k" "w" none 2000) 2000).2.2.1
      (CacheEntry.fresh "k" "v" none 0) (by decide) (by decide) (by decide)
  · exact (C2_cas_outcomes hash0 casTable "k" 1
      (CacheEntry.fresh "k" "w" none 2000) 2000).2.2.2
      (CacheEntry.fresh "k" "v" none 0) (by decide) (by decide) (by decide)

/-- Witness for C7_append_advances_sequence: the closed-WAL conjunct at a
closed WAL, and the open-WAL conjunct at a successful append from sequence
5. -/
theorem C7_append_advances_sequence_witness :
    AppendEntry { max_file_size_bytes := 100, sync_on_write := true }
        { rotate_open_ok := true, write_ok := true, header_bytes := 10, entry_bytes := 20 }
        { is_open := false, last_sequence := 5, current_file_size := 0,
          total_entries_written := 0, total_rotations := 0 } =
      (false,
        { is_open := false, last_sequence := 5, current_file_size := 0,
          total_entries_written := 0, total_rotations := 0 }) ∧
    (AppendEntry { max_file_size_bytes := 100, sync_on_write := true }
        { rotate_open_ok := true, write_ok := true, header_bytes := 10, entry_bytes := 20 }
        { is_open := true, last_sequence := 5, current_file_size := 0,
          total_entries_written := 0, total_rotations := 0 }).snd.last_sequence = 5 + 1 := by
  constructor
  · exact (C7_append_advances_sequence
      { max_file_size_bytes := 100, sync_on_write := true }
      { rotate_open_ok := true, write_ok := true, header_bytes := 10, entry_bytes := 20 }
      { is_open := false, last_sequence := 5, current_file_size := 0,
        total_entries_written := 0, total_rotations := 0 }).1 rfl
  · exact (C7_append_advances_sequence
      { max_file_size_bytes := 100, sync_on_write := true }
      { rotate_open_ok := true, write_ok := true, header_bytes := 10, entry_bytes := 20 }
      { is_open := true, last_sequence := 5, current_file_size := 0,
        total_entries_written := 0, total_rotations := 0 }).2 rfl

/-! ## Claim C9: version-vector algebra (include/distcache/version_vector.h) -/

theorem GetVersion_nil (n : String) : GetVersion [] n = 0 := rfl

theorem GetVersion_cons (y : String × Int) (ys : VersionVector) (n : String) :
    GetVersion (y :: ys) n = if y.fst = n then y.snd else GetVersion ys n := by
  by_cases h : y.fst = n
  · simp [GetVersion, List.find?, beq_iff_eq, h]
  · have hb : (y.fst == n) = false := beq_eq_false_iff_ne.mpr h
    simp [GetVersion, List.find?, hb, h]

theorem vvContains_iff (v : VersionVector) (n : String) :
    vvContains v n = true ↔ n ∈ vvKeys v := by
  simp [vvContains, vvKeys, List.any_eq_true, List.mem_map, beq_iff_eq]

theorem GetVersion_eq_zero_of_not_mem (v : VersionVector) (n : String)
    (h : n ∉ vvKeys v) : GetVersion v n = 0 := by
  induction v with
  | nil => rfl
  | cons y ys ih =>
    have h1 : y.fst ≠ n := by
      intro he
      exact h (by simp [vvKeys, he])
    have h2 : n ∉ vvKeys ys := by
      intro hm
      apply h
      simp only [vvKeys, List.map_cons, List.mem_cons]
      exact Or.inr hm
    rw [GetVersion_cons, if_neg h1]
    exact ih h2

theorem mem_vvKeys_of_GetVersion_ne (v : VersionVector) (n : String)
    (h : GetVersion v n ≠ 0) : n ∈ vvKeys v := by
  by_contra hn
  exact h (GetVersion_eq_zero_of_not_mem v n hn)

theorem mem_allNodes_iff (v1 v2 : VersionVector) (n : String) :
    n ∈ allNodes v1 v2 ↔ n ∈ vvKeys v1 ∨ n ∈ vvKeys v2 := by
  simp only [allNodes, List.mem_append, List.mem_filter]
  constructor
  · rintro (h | ⟨h, _⟩)
    · exact Or.inl h
    · exact Or.inr h
  · rintro (h | h)
    · exact Or.inl h
    · by_cases h1 : n ∈ vvKeys v1
      · exact Or.inl h1
      · refine Or.inr ⟨h, ?_⟩
        have : vvContains v1 n = false := by
          cases hc : vvContains v1 n
          · rfl
          · exact absurd ((vvContains_iff v1 n).mp hc) h1
        simp [this]

theorem compareAux_eq (v1 v2 : VersionVector) (l : List String) (d1 d2 : Bool)
    (h : ¬(d1 = true ∧ d2 = true)) :
    compareAux v1 v2 l d1 d2 =
      mkCompareResult
        (d1 || l.any (fun n => decide (GetVersion v1 n > GetVersion v2 n)))
        (d2 || l.any (fun n => decide (GetVersion v2 n > GetVersion v1 n))) := by
  induction l generalizing d1 d2 with
  | nil =>
    cases d1 <;> cases d2 <;> simp_all [compareAux, mkCompareResult]
  | cons n rest ih =>
    simp only [compareAux, List.any_cons]
    cases hc : (d1 || decide (GetVersion v1 n > GetVersion v2 n)) &&
        (d2 || decide (GetVersion v2 n > GetVersion v1 n)) with
    | true =>
      rcases Bool.and_eq_true_iff.mp hc with ⟨h1, h2⟩
      simp [mkCompareResult, ← Bool.or_assoc, h1, h2]
    | false =>
      rw [if_neg Bool.false_ne_true]
      rw [ih _ _ (by intro hcon; rw [hcon.1, hcon.2] at hc; simp at hc)]
      rw [Bool.or_assoc, Bool.or_assoc]

theorem Compare_eq_mk (v1 v2 : VersionVector) :
    Compare v1 v2 =
      mkCompareResult
        ((allNodes v1 v2).any (fun n => decide (GetVersion v1 n > GetVersion v2 n)))
        ((allNodes v1 v2).any (fun n => decide (GetVersion v2 n > GetVersion v1 n))) := by
  have h := compareAux_eq v1 v2 (allNodes v1 v2) false false (by simp)
  simpa [Compare] using h

theorem anyDom_iff (v1 v2 a b : VersionVector)
    (hmem : ∀ n, n ∈ vvKeys a ∨ n ∈ vvKeys b → n ∈ allNodes v1 v2) :
    ((allNodes v1 v2).any (fun n => decide (GetVersion a n > GetVersion b n)) = true)
      ↔ Dom a b := by
  rw [List.any_eq_true]
  constructor
  · rintro ⟨n, _, hn⟩
    exact ⟨n, of_decide_eq_true hn⟩
  · rintro ⟨n, hn⟩
    refine ⟨n, ?_, decide_eq_true hn⟩
    have h0 : GetVersion a n ≠ 0 ∨ GetVersion b n ≠ 0 := by
      by_contra hcon
      push_neg at hcon
      rw [hcon.1, hcon.2] at hn
      exact lt_irrefl 0 hn
    rcases h0 with h0 | h0
    · exact hmem n (Or.inl (mem_vvKeys_of_GetVersion_ne a n h0))
    · exact hmem n (Or.inr (mem_vvKeys_of_GetVersion_ne b n h0))

theorem Compare_concurrent_iff (v1 v2 : VersionVector) :
    Compare v1 v2 = ComparisonResult.CONCURRENT ↔ Dom v1 v2 ∧ Dom v2 v1 := by
  rw [Compare_eq_mk]
  have h1 := anyDom_iff v1 v2 v1 v2 (fun n hn => (mem_allNodes_iff v1 v2 n).mpr hn)
  have h2 := anyDom_iff v1 v2 v2 v1 (fun n hn => (mem_allNodes_iff v1 v2 n).mpr hn.symm)
  cases hb1 : (allNodes v1 v2).any (fun n => decide (GetVersion v1 n > GetVersion v2 n)) <;>
    cases hb2 : (allNodes v1 v2).any (fun n => decide (GetVersion v2 n > GetVersion v1 n)) <;>
      simp_all [mkCompareResult]

theorem Compare_greater_iff (v1 v2 : VersionVector) :
    Compare v1 v2 = ComparisonResult.GREATER ↔ Dom v1 v2 ∧ ¬Dom v2 v1 := by
  rw [Compare_eq_mk]
  have h1 := anyDom_iff v1 v2 v1 v2 (fun n hn => (mem_allNodes_iff v1 v2 n).mpr hn)
  have h2 := anyDom_iff v1 v2 v2 v1 (fun n hn => (mem_allNodes_iff v1 v2 n).mpr hn.symm)
  cases hb1 : (allNodes v1 v2).any (fun n => decide (GetVersion v1 n > GetVersion v2 n)) <;>
    cases hb2 : (allNodes v1 v2).any (fun n => decide (GetVersion v2 n > GetVersion v1 n)) <;>
      simp_all [mkCompareResult]

theorem Compare_less_iff (v1 v2 : VersionVector) :
    Compare v1 v2 = ComparisonResult.LESS ↔ Dom v2 v1 ∧ ¬Dom v1 v2 := by
  rw [Compare_eq_mk]
  have h1 := anyDom_iff v1 v2 v1 v2 (fun n hn => (mem_allNodes_iff v1 v2 n).mpr hn)
  have h2 := anyDom_iff v1 v2 v2 v1 (fun n hn => (mem_allNodes_iff v1 v2 n).mpr hn.symm)
  cases hb1 : (allNodes v1 v2).any (fun n => decide (GetVersion v1 n > GetVersion v2 n)) <;>
    cases hb2 : (allNodes v1 v2).any (fun n => decide (GetVersion v2 n > GetVersion v1 n)) <;>
      simp_all [mkCompareResult]

theorem Compare_equal_iff (v1 v2 : VersionVector) :
    Compare v1 v2 = ComparisonResult.EQUAL ↔ ¬Dom v1 v2 ∧ ¬Dom v2 v1 := by
  rw [Compare_eq_mk]
  have h1 := anyDom_iff v1 v2 v1 v2 (fun n hn => (mem_allNodes_iff v1 v2 n).mpr hn)
  have h2 := anyDom_iff v1 v2 v2 v1 (fun n hn => (mem_allNodes_iff v1 v2 n).mpr hn.symm)
  cases hb1 : (allNodes v1 v2).any (fun n => decide (GetVersion v1 n > GetVersion v2 n)) <;>
    cases hb2 : (allNodes v1 v2).any (fun n => decide (GetVersion v2 n > GetVersion v1 n)) <;>
      simp_all [mkCompareResult]

theorem GetVersion_nonneg (v : VersionVector) (n : String) (h : ∀ p ∈ v, 0 ≤ p.snd) :
    0 ≤ GetVersion v n := by
  induction v with
  | nil => simp [GetVersion_nil]
  | cons y ys ih =>
    rw [GetVersion_cons]
    by_cases hy : y.fst = n
    · rw [if_pos hy]
      exact h y (by simp)
    · rw [if_neg hy]
      exact ih (fun p hp => h p (by simp [hp]))

theorem find?_isSome_iff_mem (a : VersionVector) (k : String) :
    ((a.find? (fun q => q.fst == k)).isSome = true) ↔ k ∈ vvKeys a := by
  induction a with
  | nil => simp [List.find?, vvKeys]
  | cons y ys ih =>
    by_cases hy : y.fst = k
    · simp [List.find?, beq_iff_eq.mpr hy, vvKeys, hy]
    · have hb : (y.fst == k) = false := beq_eq_false_iff_ne.mpr hy
      simp only [List.find?, hb]
      rw [ih]
      simp [vvKeys, hy, Ne.symm hy]

theorem GetVersion_map_update_self (a : VersionVector) (k : String) (c : Int)
    (h : k ∈ vvKeys a) :
    GetVersion (a.map (fun q => if q.fst == k then (q.fst, max q.snd c) else q)) k
      = max (GetVersion a k) c := by
  induction a with
  | nil => simp [vvKeys] at h
  | cons x xs ih =>
    rw [List.map_cons]
    by_cases hx : x.fst = k
    · rw [if_pos (beq_iff_eq.mpr hx)]
      rw [GetVersion_cons, GetVersion_cons, if_pos hx, if_pos hx]
    · rw [if_neg (by simp [beq_eq_false_iff_ne.mpr hx])]
      rw [GetVersion_cons, GetVersion_cons, if_neg hx, if_neg hx]
      have hmem : k ∈ vvKeys xs := by
        have h1 := h
        simp only [vvKeys, List.map_cons, List.mem_cons] at h1
        rcases h1 with he | hm
        · exact absurd he.symm hx
        · exact hm
      exact ih hmem

theorem GetVersion_map_update_other (a : VersionVector) (k : String) (c : Int) (n : String)
    (hne : n ≠ k) :
    GetVersion (a.map (fun q => if q.fst == k then (q.fst, max q.snd c) else q)) n
      = GetVersion a n := by
  induction a with
  | nil => rfl
  | cons x xs ih =>
    rw [List.map_cons]
    by_cases hx : x.fst = k
    · rw [if_pos (beq_iff_eq.mpr hx)]
      rw [GetVersion_cons, GetVersion_cons]
      rw [if_neg (fun he => hne (hx ▸ he).symm), if_neg (fun he => hne (hx ▸ he).symm)]
      exact ih
    · rw [if_neg (by simp [beq_eq_false_iff_ne.mpr hx])]
      rw [GetVersion_cons, GetVersion_cons]
      by_cases hxn : x.fst = n
      · rw [if_pos hxn, if_pos hxn]
      · rw [if_neg hxn, if_neg hxn]
        exact ih

theorem GetVersion_append_single (a : VersionVector) (p : String × Int) (n : String)
    (h : n ∉ vvKeys a) : GetVersion (a ++ [p]) n = GetVersion [p] n := by
  induction a with
  | nil => rfl
  | cons x xs ih =>
    have h1 : x.fst ≠ n := fun he => h (by simp [vvKeys, he])
    have h2 : n ∉ vvKeys xs := by
      intro hm
      apply h
      simp only [vvKeys, List.map_cons, List.mem_cons]
      exact Or.inr hm
    rw [List.cons_append, GetVersion_cons, if_neg h1]
    exact ih h2

theorem mergeStep_nonneg (a : VersionVector) (p : String × Int)
    (ha : ∀ q ∈ a, 0 ≤ q.snd) (hp : 0 ≤ p.snd) :
    ∀ q ∈ mergeStep a p, 0 ≤ q.snd := by
  intro q hq
  unfold mergeStep at hq
  by_cases hf : (a.find? (fun r => r.fst == p.fst)).isSome
  · rw [if_pos hf] at hq
    rcases List.mem_map.mp hq with ⟨r, hr, hrq⟩
    by_cases hrk : (r.fst == p.fst) = true
    · rw [if_pos hrk] at hrq
      rw [← hrq]
      exact le_trans (ha r hr) (le_max_left _ _)
    · rw [if_neg hrk] at hrq
      rw [← hrq]
      exact ha r hr
  · rw [if_neg hf] at hq
    rcases List.mem_append.mp hq with hm | hm
    · exact ha q hm
    · rw [List.mem_singleton.mp hm]
      exact hp

theorem GetVersion_mergeStep_self (a : VersionVector) (p : String × Int) (hp : 0 ≤ p.snd) :
    GetVersion (mergeStep a p) p.fst = max (GetVersion a p.fst) p.snd := by
  unfold mergeStep
  by_cases hf : (a.find? (fun r => r.fst == p.fst)).isSome
  · rw [if_pos hf]
    exact GetVersion_map_update_self a p.fst p.snd ((find?_isSome_iff_mem a p.fst).mp hf)
  · rw [if_neg hf]
    have hmem : p.fst ∉ vvKeys a := fun hm => hf ((find?_isSome_iff_mem a p.fst).mpr hm)
    rw [GetVersion_append_single a p p.fst hmem]
    rw [GetVersion_eq_zero_of_not_mem a p.fst hmem]
    rw [GetVersion_cons, if_pos rfl]
    exact (max_eq_right hp).symm

theorem GetVersion_append_single_other (a : VersionVector) (p : String × Int) (n : String)
    (hne : n ≠ p.fst) : GetVersion (a ++ [p]) n = GetVersion a n := by
  induction a with
  | nil =>
    rw [List.nil_append, GetVersion_cons, if_neg (fun he => hne he.symm)]
  | cons x xs ih =>
    rw [List.cons_append, GetVersion_cons, GetVersion_cons]
    by_cases hxn : x.fst = n
    · rw [if_pos hxn, if_pos hxn]
    · rw [if_neg hxn, if_neg hxn]
      exact ih

theorem GetVersion_mergeStep_other (a : VersionVector) (p : String × Int) (n : String)
    (hne : n ≠ p.fst) : GetVersion (mergeStep a p) n = GetVersion a n := by
  unfold mergeStep
  by_cases hf : (a.find? (fun r => r.fst == p.fst)).isSome
  · rw [if_pos hf]
    exact GetVersion_map_update_other a p.fst p.snd n hne
  · rw [if_neg hf]
    exact GetVersion_append_single_other a p n hne

theorem GetVersion_Merge (b : VersionVector) : ∀ (a : VersionVector),
    (∀ p ∈ a, 0 ≤ p.snd) → (∀ p ∈ b, 0 ≤ p.snd) → (b.map Prod.fst).Nodup →
    ∀ n, GetVersion (Merge a b) n = max (GetVersion a n) (GetVersion b n) := by
  induction b with
  | nil =>
    intro a ha _ _ n
    have h0 : 0 ≤ GetVersion a n := GetVersion_nonneg a n ha
    have : Merge a [] = a := rfl
    rw [this, GetVersion_nil]
    exact (max_eq_left h0).symm
  | cons p rest ih =>
    intro a ha hb hbn n
    have hp : 0 ≤ p.snd := hb p (by simp)
    have hrest : ∀ q ∈ rest, 0 ≤ q.snd := fun q hq => hb q (by simp [hq])
    rw [List.map_cons] at hbn
    have hnodup := List.nodup_cons.mp hbn
    have ha' : ∀ q ∈ mergeStep a p, 0 ≤ q.snd := mergeStep_nonneg a p ha hp
    have hstep : Merge a (p :: rest) = Merge (mergeStep a p) rest := rfl
    rw [hstep, ih (mergeStep a p) ha' hrest hnodup.2 n]
    by_cases hn : n = p.fst
    · rw [hn]
      rw [GetVersion_mergeStep_self a p hp]
      rw [GetVersion_cons, if_pos rfl]
      rw [GetVersion_eq_zero_of_not_mem rest p.fst hnodup.1]
      have hmax : 0 ≤ max (GetVersion a p.fst) p.snd := le_trans hp (le_max_right _ _)
      exact max_eq_left hmax
    · rw [GetVersion_mergeStep_other a p n hn]
      rw [GetVersion_cons, if_neg (fun he => hn he.symm)]

/-- Claim C9, counterexample.  With a = [("n1", -1)] and b = [], Merge keeps
the stored entry -1, but max(a["n1"], b["n1"]) with absent entries counting
as 0 is max(-1, 0) = 0: the Merge clause of the claim fails for a vector
holding a negative version (int64_t admits them; nothing in Merge clamps
at 0). -/
theorem C9_counterexample :
    GetVersion (Merge [("n1", -1)] ([] : VersionVector)) "n1" ≠
      max (GetVersion [("n1", -1)] "n1") (GetVersion ([] : VersionVector) "n1") := by
  decide

/-- Claim C9, amended.  For all version vectors a and b with duplicate-free
node ids: Compare(a,a) = EQUAL; Compare(a,b) = LESS implies Compare(b,a) =
GREATER; if neither vector dominates the other and they are not pointwise
equal then Compare returns CONCURRENT; and — provided every entry of a and b
is nonnegative, as every vector built by Increment is — Merge(a,b)[n] =
max(a[n], b[n]) for every node n, absent entries counting as 0. -/
theorem C9_version_vector_laws (a b : VersionVector)
    (ha : ∀ p ∈ a, 0 ≤ p.snd) (hb : ∀ p ∈ b, 0 ≤ p.snd)
    (hbn : (b.map Prod.fst).Nodup) :
    Compare a a = ComparisonResult.EQUAL ∧
    (Compare a b = ComparisonResult.LESS → Compare b a = ComparisonResult.GREATER) ∧
    (¬Dominates a b → ¬Dominates b a → ¬PointwiseEq a b →
      Compare a b = ComparisonResult.CONCURRENT) ∧
    (∀ n, GetVersion (Merge a b) n = max (GetVersion a n) (GetVersion b n)) := by
  refine ⟨?_, ?_, ?_, ?_⟩
  · rw [Compare_equal_iff]
    exact ⟨fun ⟨n, hlt⟩ => lt_irrefl _ hlt, fun ⟨n, hlt⟩ => lt_irrefl _ hlt⟩
  · intro h
    rw [Compare_less_iff] at h
    rw [Compare_greater_iff]
    exact h
  · intro hab hba hne
    rw [Compare_concurrent_iff]
    have hd : Dom a b ∨ Dom b a := by
      by_contra hcon
      push_neg at hcon
      apply hne
      intro n
      have h1 : ¬ GetVersion a n > GetVersion b n := fun hlt => hcon.1 ⟨n, hlt⟩
      have h2 : ¬ GetVersion b n > GetVersion a n := fun hlt => hcon.2 ⟨n, hlt⟩
      omega
    have hDab : Dom a b := by
      by_contra hnd
      rcases hd with h | h
      · exact hnd h
      · exact hba ⟨fun n => le_of_not_lt (fun hlt => hnd ⟨n, hlt⟩), h⟩
    have hDba : Dom b a := by
      by_contra hnd
      rcases hd with h | h
      · exact hab ⟨fun n => le_of_not_lt (fun hlt => hnd ⟨n, hlt⟩), h⟩
      · exact hnd h
    exact ⟨hDab, hDba⟩
  · exact GetVersion_Merge b a ha hb hbn

/-- Witness for C9_version_vector_laws on concrete vectors: a = [("x",1)],
b = [("x",2),("y",1)], so that a is LESS than b, the swap is GREATER, and
Merge takes the pointwise maximum. -/
theorem C9_version_vector_laws_witness :
    Compare [("x", (1 : Int))] [("x", (1 : Int))] = ComparisonResult.EQUAL ∧
    Compare [("x", (2 : Int)), ("y", (1 : Int))] [("x", (1 : Int))] =
      ComparisonResult.GREATER ∧
    GetVersion (Merge [("x", (1 : Int))] [("x", (2 : Int)), ("y", (1 : Int))]) "x" =
      max (GetVersion [("x", (1 : Int))] "x")
        (GetVersion [("x", (2 : Int)), ("y", (1 : Int))] "x") := by
  refine ⟨?_, ?_, ?_⟩
  · exact (C9_version_vector_laws [("x", (1 : Int))] [("x", (2 : Int)), ("y", (1 : Int))]
      (by decide) (by decide) (by decide)).1
  · exact (C9_version_vector_laws [("x", (1 : Int))] [("x", (2 : Int)), ("y", (1 : Int))]
      (by decide) (by decide) (by decide)).2.1 (by decide)
  · exact (C9_version_vector_laws [("x", (1 : Int))] [("x", (2 : Int)), ("y", (1 : Int))]
      (by decide) (by decide) (by decide)).2.2.2 "x"

/-! ## Claim C3: recovery snapshot selection
(src/persistence/recovery_manager.cpp, src/cluster/snapshot_manager.cpp) -/

theorem insertDesc_ne_nil (m : SnapshotMetadata) (l : List SnapshotMetadata) :
    insertDesc m l ≠ [] := by
  cases l with
  | nil => simp [insertDesc]
  | cons y ys =>
    unfold insertDesc
    by_cases h : m.timestamp > y.timestamp
    · rw [if_pos h]
      simp
    · rw [if_neg h]
      simp

theorem sortByTimestampDesc_eq_nil (l : List SnapshotMetadata) :
    sortByTimestampDesc l = [] ↔ l = [] := by
  cases l with
  | nil => simp [sortByTimestampDesc]
  | cons x xs =>
    simp only [sortByTimestampDesc]
    constructor
    · intro h
      exact absurd h (insertDesc_ne_nil _ _)
    · intro h
      cases h

theorem mem_insertDesc (m x : SnapshotMetadata) (l : List SnapshotMetadata) :
    x ∈ insertDesc m l ↔ x = m ∨ x ∈ l := by
  induction l with
  | nil => simp [insertDesc]
  | cons y ys ih =>
    unfold insertDesc
    by_cases h : m.timestamp > y.timestamp
    · rw [if_pos h]
      simp only [List.mem_cons]
    · rw [if_neg h]
      simp only [List.mem_cons, ih]
      tauto

theorem mem_sortByTimestampDesc (l : List SnapshotMetadata) (x : SnapshotMetadata) :
    x ∈ sortByTimestampDesc l ↔ x ∈ l := by
  induction l with
  | nil => simp [sortByTimestampDesc]
  | cons y ys ih =>
    simp only [sortByTimestampDesc]
    rw [mem_insertDesc]
    simp [List.mem_cons, ih]

theorem sortByTimestampDesc_head_max (l : List SnapshotMetadata) (m : SnapshotMetadata)
    (rest : List SnapshotMetadata) (h : sortByTimestampDesc l = m :: rest) :
    ∀ x ∈ l, x.timestamp ≤ m.timestamp := by
  induction l generalizing m rest with
  | nil => simp [sortByTimestampDesc] at h
  | cons y ys ih =>
    intro x hx
    simp only [sortByTimestampDesc] at h
    cases hs : sortByTimestampDesc ys with
    | nil =>
      rw [hs] at h
      simp only [insertDesc] at h
      injection h with h1 h2
      have hys : ys = [] := (sortByTimestampDesc_eq_nil ys).mp hs
      rcases List.mem_cons.mp hx with he | hm
      · rw [he, h1]
      · rw [hys] at hm
        cases hm
    | cons z zs =>
      rw [hs] at h
      unfold insertDesc at h
      by_cases hcmp : y.timestamp > z.timestamp
      · rw [if_pos hcmp] at h
        injection h with h1 h2
        rcases List.mem_cons.mp hx with he | hm
        · rw [he, ← h1]
        · have hle := ih z zs hs x hm
          rw [← h1]
          exact le_trans hle (le_of_lt hcmp)
      · rw [if_neg hcmp] at h
        injection h with h1 h2
        rcases List.mem_cons.mp hx with he | hm
        · rw [he, ← h1]
          exact le_of_not_lt hcmp
        · rw [← h1]
          exact ih z zs hs x hm

/-- Claim C3, counterexample.  Two snapshots exist: "old" (timestamp 1,
readable, intact) and "new" (timestamp 2) whose file cannot be read — so in
particular its checksum cannot validate.  The claim requires falling back to
the next-newest validating snapshot "old" and restoring its entry; recovery
instead returns failure with the engine left empty. -/
theorem C3_counterexample :
    RestoreSnapshot hash0 recoverySnapshots recoveryReadFile (mkTable 1 1000000) =
      (false, mkTable 1 1000000) ∧
    recoveryReadFile "old" = some [("k", CacheEntry.fresh "k" "v" none 0)] := by
  decide

/-- Claim C3, amended.  Recovery sorts the snapshots by timestamp descending
and attempts a restore only from the newest; the recorded checksum is never
validated on this path, and when reading the newest snapshot's file fails
there is no fallback to the next-newest: the restore returns false and the
engine state is left untouched (the engine starts empty). -/
theorem C3_recovery_attempts_only_newest (hash : String → Nat)
    (snapshots : List SnapshotMetadata)
    (readFile : String → Option (List (String × CacheEntry)))
    (t : ShardedHashTable) (h : snapshots ≠ []) :
    ∃ latest, latest ∈ snapshots ∧
      (∀ m ∈ snapshots, m.timestamp ≤ latest.timestamp) ∧
      RestoreSnapshot hash snapshots readFile t =
        RestoreFromSnapshot hash snapshots readFile t latest.snapshot_id ∧
      (∀ meta, GetSnapshotMetadata snapshots latest.snapshot_id = some meta →
        readFile meta.snapshot_id = none →
        RestoreSnapshot hash snapshots readFile t = (false, t)) := by
  cases hs : sortByTimestampDesc snapshots with
  | nil => exact absurd ((sortByTimestampDesc_eq_nil snapshots).mp hs) h
  | cons m rest =>
    refine ⟨m, ?_, ?_, ?_, ?_⟩
    · exact (mem_sortByTimestampDesc snapshots m).mp (hs ▸ List.mem_cons_self m rest)
    · exact sortByTimestampDesc_head_max snapshots m rest hs
    · unfold RestoreSnapshot
      rw [hs]
    · intro meta hmeta hread
      have hre : RestoreSnapshot hash snapshots readFile t =
          RestoreFromSnapshot hash snapshots readFile t m.snapshot_id := by
        unfold RestoreSnapshot
        rw [hs]
      rw [hre]
      unfold RestoreFromSnapshot
      simp only [hmeta, hread]

/-- Witness for C3_recovery_attempts_only_newest on the concrete snapshot
pair: the newest snapshot "new" is unreadable, so recovery reports failure
and leaves the fresh engine untouched although "old" is restorable. -/
theorem C3_recovery_attempts_only_newest_witness :
    RestoreSnapshot hash0 recoverySnapshots recoveryReadFile (mkTable 1 500000) =
      (false, mkTable 1 500000) := by
  obtain ⟨latest, hmem, hmax, heq, hfail⟩ :=
    C3_recovery_attempts_only_newest hash0 recoverySnapshots recoveryReadFile
      (mkTable 1 500000) (by decide)
  have hts : (2 : Int) ≤ latest.timestamp := hmax newSnapshotMeta (by decide)
  rcases List.mem_cons.mp hmem with h1 | h1
  · rw [h1] at hts
    exact absurd hts (by decide)
  · have h2 : latest = newSnapshotMeta := by simpa using h1
    rw [h2] at hfail
    exact hfail newSnapshotMeta (by decide) (by decide)

/-! ## Claim C8: drain job derivation
(src/cluster/rebalance_orchestrator.cpp) -/

theorem mem_insertPath (paths : List ((String × String) × List String))
    (q : String × String) (k0 k : String) :
    (∃ p ∈ insertPath paths q k0, k ∈ p.snd) ↔ (∃ p ∈ paths, k ∈ p.snd) ∨ k = k0 := by
  induction paths with
  | nil => simp [insertPath]
  | cons pr rest ih =>
    rcases pr with ⟨q1, ks⟩
    unfold insertPath
    by_cases h : q1 = q
    · rw [if_pos h]
      constructor
      · rintro ⟨p, hp, hk⟩
        rcases List.mem_cons.mp hp with rfl | hp1
        · rcases List.mem_append.mp hk with hk1 | hk1
          · exact Or.inl ⟨(q1, ks), List.mem_cons_self _ _, hk1⟩
          · exact Or.inr (List.mem_singleton.mp hk1)
        · exact Or.inl ⟨p, List.mem_cons_of_mem _ hp1, hk⟩
      · rintro (⟨p, hp, hk⟩ | rfl)
        · rcases List.mem_cons.mp hp with rfl | hp1
          · exact ⟨(q1, ks ++ [k0]), List.mem_cons_self _ _,
              List.mem_append.mpr (Or.inl hk)⟩
          · exact ⟨p, List.mem_cons_of_mem _ hp1, hk⟩
        · exact ⟨(q1, ks ++ [k]), List.mem_cons_self _ _, by simp⟩
    · rw [if_neg h]
      constructor
      · rintro ⟨p, hp, hk⟩
        rcases List.mem_cons.mp hp with rfl | hp1
        · exact Or.inl ⟨(q1, ks), List.mem_cons_self _ _, hk⟩
        · rcases ih.mp ⟨p, hp1, hk⟩ with ⟨p2, hp2, hk2⟩ | hR
          · exact Or.inl ⟨p2, List.mem_cons_of_mem _ hp2, hk2⟩
          · exact Or.inr hR
      · rintro (⟨p, hp, hk⟩ | rfl)
        · rcases List.mem_cons.mp hp with rfl | hp1
          · exact ⟨(q1, ks), List.mem_cons_self _ _, hk⟩
          · rcases ih.mpr (Or.inl ⟨p, hp1, hk⟩) with ⟨p2, hp2, hk2⟩
            exact ⟨p2, List.mem_cons_of_mem _ hp2, hk2⟩
        · rcases ih.mpr (Or.inr rfl) with ⟨p2, hp2, hk2⟩
          exact ⟨p2, List.mem_cons_of_mem _ hp2, hk2⟩

theorem mem_groupStep (oldRing newRing : String → Option String)
    (paths : List ((String × String) × List String)) (key k : String) :
    (∃ p ∈ groupStep oldRing newRing paths key, k ∈ p.snd) ↔
      (∃ p ∈ paths, k ∈ p.snd) ∨
        (k = key ∧ ∃ o n, oldRing key = some o ∧ newRing key = some n ∧ o ≠ n) := by
  rcases ho : oldRing key with _ | o
  · simp [groupStep, groupStepAux, ho]
  · rcases hn : newRing key with _ | n
    · simp [groupStep, groupStepAux, ho, hn]
    · by_cases hne : o ≠ n
      · simp only [groupStep, groupStepAux, ho, hn, if_pos hne, mem_insertPath]
        simp [hne]
      · push_neg at hne
        simp [groupStep, groupStepAux, ho, hn, hne]

theorem mem_foldl_groupStep (oldRing newRing : String → Option String)
    (keys : List String) : ∀ (acc : List ((String × String) × List String)) (k : String),
    (∃ p ∈ keys.foldl (groupStep oldRing newRing) acc, k ∈ p.snd) ↔
      (∃ p ∈ acc, k ∈ p.snd) ∨
        (k ∈ keys ∧ ∃ o n, oldRing k = some o ∧ newRing k = some n ∧ o ≠ n) := by
  induction keys with
  | nil =>
    intro acc k
    simp
  | cons key rest ih =>
    intro acc k
    rw [List.foldl_cons, ih, mem_groupStep]
    constructor
    · rintro ((h | ⟨rfl, hC⟩) | ⟨hk, hC⟩)
      · exact Or.inl h
      · exact Or.inr ⟨List.mem_cons_self _ _, hC⟩
      · exact Or.inr ⟨List.mem_cons_of_mem _ hk, hC⟩
    · rintro (h | ⟨hk, hC⟩)
      · exact Or.inl (Or.inl h)
      · rcases List.mem_cons.mp hk with rfl | hk1
        · exact Or.inl (Or.inr ⟨rfl, hC⟩)
        · exact Or.inr ⟨hk1, hC⟩

/-- Claim C8, counterexample.  The engine holds "a" and "b"; the rings agree
that "a" stays on n1 while "b" moves from n1 to n2.  The drain's migration
job set contains a single job carrying only "b": the key "a", although
present in the engine when the drain starts, is assigned to no migration
job, contradicting the claim that all local keys are drained. -/
theorem C8_counterexample :
    "a" ∈ (engineEntries drainTable 0).map Prod.fst ∧
    start_drain_paths drainOldRing drainNewRing drainTable 0 =
      [(("n1", "n2"), ["b"])] := by
  decide

/-- Claim C8, amended.  A drain derives its candidate key set from the
engine's contents (every key `for_each` yields), but the grouping step then
drops every key whose owner is unchanged between the two rings (and every
key one of the rings cannot resolve): a key belongs to some migration job
if and only if it is present in the engine and its old and new owners both
exist and differ. -/
theorem C8_drain_assigns_exactly_moved_keys (oldRing newRing : String → Option String)
    (t : ShardedHashTable) (now : Int) (k : String) :
    (∃ p ∈ start_drain_paths oldRing newRing t now, k ∈ p.snd) ↔
      (k ∈ (engineEntries t now).map Prod.fst ∧
        ∃ o n, oldRing k = some o ∧ newRing k = some n ∧ o ≠ n) := by
  unfold start_drain_paths group_keys_by_migration_path
  rw [mem_foldl_groupStep]
  simp

/-! ## Claim C10: counter accuracy of the engine
(src/cache/storage_engine.cpp) -/

theorem eraseKey_sublist (l : List (String × CacheEntry)) (k : String) :
    (eraseKey l k).Sublist l := by
  induction l with
  | nil => simp [eraseKey]
  | cons p rest ih =>
    unfold eraseKey
    by_cases h : (p.fst == k) = true
    · rw [if_pos h]
      exact (List.Sublist.refl rest).cons p
    · rw [if_neg h]
      exact ih.cons₂ p

theorem lookupKey_rest (p : String × CacheEntry) (rest : List (String × CacheEntry))
    (k : String) (hb : (p.fst == k) = false) :
    lookupKey (p :: rest) k = lookupKey rest k := by
  simp [lookupKey, List.find?, hb]

theorem lookupKey_head (p : String × CacheEntry) (rest : List (String × CacheEntry))
    (k : String) (hb : (p.fst == k) = true) :
    lookupKey (p :: rest) k = some p.snd := by
  simp [lookupKey, List.find?, hb]

theorem eraseKey_length (l : List (String × CacheEntry)) (k : String) (e : CacheEntry)
    (h : lookupKey l k = some e) : (eraseKey l k).length + 1 = l.length := by
  induction l with
  | nil => simp [lookupKey] at h
  | cons p rest ih =>
    unfold eraseKey
    by_cases hb : (p.fst == k) = true
    · rw [if_pos hb]
      rfl
    · rw [if_neg hb]
      rw [lookupKey_rest p rest k (by simpa using hb)] at h
      simp only [List.length_cons]
      have := ih h
      omega

theorem eraseKey_sumSizes (l : List (String × CacheEntry)) (k : String) (e : CacheEntry)
    (h : lookupKey l k = some e) :
    sumSizes (eraseKey l k) + e.total_size = sumSizes l := by
  induction l with
  | nil => simp [lookupKey] at h
  | cons p rest ih =>
    unfold eraseKey
    by_cases hb : (p.fst == k) = true
    · rw [if_pos hb]
      rw [lookupKey_head p rest k hb] at h
      have he : p.snd = e := by
        injection h
      simp only [sumSizes, List.map_cons, List.sum_cons, ← he]
      omega
    · rw [if_neg hb]
      rw [lookupKey_rest p rest k (by simpa using hb)] at h
      simp only [sumSizes, List.map_cons, List.sum_cons]
      have := ih h
      simp only [sumSizes] at this
      omega

theorem lookupKey_size_le (l : List (String × CacheEntry)) (k : String) (e : CacheEntry)
    (h : lookupKey l k = some e) : e.total_size ≤ sumSizes l := by
  have := eraseKey_sumSizes l k e h
  omega

theorem replaceKey_length (l : List (String × CacheEntry)) (k : String) (e : CacheEntry) :
    (replaceKey l k e).length = l.length := by
  induction l with
  | nil => rfl
  | cons p rest ih =>
    unfold replaceKey
    by_cases hb : (p.fst == k) = true
    · rw [if_pos hb]
      rfl
    · rw [if_neg hb]
      simp only [List.length_cons, ih]

theorem replaceKey_map_fst (l : List (String × CacheEntry)) (k : String) (e : CacheEntry) :
    (replaceKey l k e).map Prod.fst = l.map Prod.fst := by
  induction l with
  | nil => rfl
  | cons p rest ih =>
    unfold replaceKey
    by_cases hb : (p.fst == k) = true
    · rw [if_pos hb]
      rfl
    · rw [if_neg hb]
      simp only [List.map_cons, ih]

theorem replaceKey_sumSizes (l : List (String × CacheEntry)) (k : String)
    (e cur : CacheEntry) (h : lookupKey l k = some cur) :
    sumSizes (replaceKey l k e) + cur.total_size = sumSizes l + e.total_size := by
  induction l with
  | nil => simp [lookupKey] at h
  | cons p rest ih =>
    unfold replaceKey
    by_cases hb : (p.fst == k) = true
    · rw [if_pos hb]
      rw [lookupKey_head p rest k hb] at h
      have he : p.snd = cur := by
        injection h
      simp only [sumSizes, List.map_cons, List.sum_cons, ← he]
      omega
    · rw [if_neg hb]
      rw [lookupKey_rest p rest k (by simpa using hb)] at h
      simp only [sumSizes, List.map_cons, List.sum_cons]
      have := ih h
      simp only [sumSizes] at this
      omega

theorem lookupKey_none_not_mem (l : List (String × CacheEntry)) (k : String)
    (h : lookupKey l k = none) : k ∉ l.map Prod.fst := by
  induction l with
  | nil => simp
  | cons p rest ih =>
    by_cases hb : (p.fst == k) = true
    · rw [lookupKey_head p rest k hb] at h
      cases h
    · rw [lookupKey_rest p rest k (by simpa using hb)] at h
      intro hm
      rcases List.mem_cons.mp hm with he | hm1
      · exact absurd (beq_iff_eq.mpr he.symm) (by simpa using hb)
      · exact ih h hm1

theorem getD_mem {α : Type} (l : List α) (i : Nat) (d : α) (h : i < l.length) :
    l.getD i d ∈ l := by
  induction l generalizing i with
  | nil => simp at h
  | cons x xs ih =>
    cases i with
    | zero => simp [List.getD_cons_zero]
    | succ n =>
      simp only [List.getD_cons_succ]
      exact List.mem_cons_of_mem _ (ih n (by simpa using h))

theorem sum_map_set {α : Type} (f : α → Nat) (l : List α) (i : Nat) (a d : α)
    (h : i < l.length) :
    ((l.set i a).map f).sum + f (l.getD i d) = (l.map f).sum + f a := by
  induction l generalizing i with
  | nil => simp at h
  | cons x xs ih =>
    cases i with
    | zero =>
      simp only [List.set, List.getD_cons_zero, List.map_cons, List.sum_cons]
      omega
    | succ n =>
      simp only [List.set, List.getD_cons_succ, List.map_cons, List.sum_cons]
      have := ih n (by simpa using h)
      omega

theorem f_getD_le_sum {α : Type} (f : α → Nat) (l : List α) (i : Nat) (d : α)
    (h : i < l.length) : f (l.getD i d) ≤ (l.map f).sum :=
  List.single_le_sum (fun x _ => Nat.zero_le x) _
    (List.mem_map_of_mem f (getD_mem l i d h))

/-- The eviction loop only deletes entries of its shard, and keeps the two
global counters in step with the deletions: with `rc` and `rm` the
count and byte total of the rest of the table, the counters remain
`rest + this shard` throughout. -/
theorem evictLoop_spec (maxm req : Nat) :
    ∀ (fuel : Nat) (s : Shard) (tm te rc rm : Nat),
    te = rc + s.data.length →
    tm = rm + sumSizes s.data →
    ((evictLoop maxm req fuel s tm te).fst.data.Sublist s.data ∧
     (evictLoop maxm req fuel s tm te).snd.snd
       = rc + (evictLoop maxm req fuel s tm te).fst.data.length ∧
     (evictLoop maxm req fuel s tm te).snd.fst
       = rm + sumSizes (evictLoop maxm req fuel s tm te).fst.data) := by
  intro fuel
  induction fuel with
  | zero =>
    intro s tm te rc rm hte htm
    exact ⟨List.Sublist.refl _, hte, htm⟩
  | succ n ih =>
    intro s tm te rc rm hte htm
    by_cases hc : (needs_eviction maxm tm req && !s.lru_list.isEmpty) = true
    · cases hl : s.lru_list.getLast? with
      | none =>
        simp only [evictLoop, hc, hl]
        exact ⟨List.Sublist.refl _, hte, htm⟩
      | some lru_key =>
        cases hk : lookupKey s.data lru_key with
        | some e =>
          have hlen := eraseKey_length s.data lru_key e hk
          have hsum := eraseKey_sumSizes s.data lru_key e hk
          have h1 : te - 1 = rc + (eraseKey s.data lru_key).length := by omega
          have h2 : tm - e.total_size = rm + sumSizes (eraseKey s.data lru_key) := by
            omega
          have hrec := ih
            { data := eraseKey s.data lru_key
              lru_list := s.lru_list.dropLast
              memory_bytes := s.memory_bytes - e.total_size }
            (tm - e.total_size) (te - 1) rc rm h1 h2
          simp only [evictLoop, hc, hl, hk]
          exact ⟨hrec.1.trans (eraseKey_sublist _ _), hrec.2.1, hrec.2.2⟩
        | none =>
          simp only [evictLoop, hc, hl, hk]
          exact ih { s with lru_list := s.lru_list.dropLast } tm te rc rm hte htm
    · simp only [evictLoop, hc]
      exact ⟨List.Sublist.refl _, hte, htm⟩

/-- Any table built by replacing one shard while adjusting the two global
counters by the same delta is again well-formed. -/
theorem TableWF_set_general (t : ShardedHashTable) (i : Nat) (s1 : Shard)
    (te tm maxb : Nat) (hi : i < t.shards.length) (hWF : TableWF t)
    (hcount : te + shardEntryCount (t.shards.getD i Shard.empty)
      = t.total_entries + shardEntryCount s1)
    (hmem : tm + shardMemSum (t.shards.getD i Shard.empty)
      = t.total_memory_bytes + shardMemSum s1)
    (hnd1 : (s1.data.map Prod.fst).Nodup) :
    TableWF { shards := t.shards.set i s1, max_memory_bytes := maxb,
              total_memory_bytes := tm, total_entries := te } := by
  obtain ⟨⟨hent, hmm⟩, hpos, hnd⟩ := hWF
  have hs1 := sum_map_set shardEntryCount t.shards i s1 Shard.empty hi
  have hs2 := sum_map_set shardMemSum t.shards i s1 Shard.empty hi
  refine ⟨⟨?_, ?_⟩, ?_, ?_⟩
  · simp only [size, entriesStored] at hent ⊢
    omega
  · simp only [memory_usage, memStored] at hmm ⊢
    omega
  · simpa using hpos
  · intro s hs
    rcases List.mem_or_eq_of_mem_set hs with h2 | h2
    · exact hnd s h2
    · rw [h2]
      exact hnd1

/-- `set` preserves well-formedness: the counters track replacements,
evictions and the insertion exactly. -/
theorem TableWF_set (hash : String → Nat) (t : ShardedHashTable) (k : String)
    (e : CacheEntry) (h : TableWF t) : TableWF (set hash t k e).snd := by
  have hpos : 0 < t.shards.length := h.2.1
  have hi : shardIdx hash t k < t.shards.length := Nat.mod_lt _ hpos
  have hndshard : ((getShard t (shardIdx hash t k)).data.map Prod.fst).Nodup :=
    h.2.2 _ (getD_mem _ _ _ hi)
  have hcle : shardEntryCount (getShard t (shardIdx hash t k)) ≤ entriesStored t :=
    f_getD_le_sum shardEntryCount t.shards _ Shard.empty hi
  have hmle : shardMemSum (getShard t (shardIdx hash t k)) ≤ memStored t :=
    f_getD_le_sum shardMemSum t.shards _ Shard.empty hi
  have hent := h.1.1
  have hmm := h.1.2
  cases hl : lookupKey (getShard t (shardIdx hash t k)).data k with
  | some old =>
    have hrl := replaceKey_length (getShard t (shardIdx hash t k)).data k e
    have hrs := replaceKey_sumSizes (getShard t (shardIdx hash t k)).data k e old hl
    have hole := lookupKey_size_le _ _ _ hl
    simp only [set, hl]
    apply TableWF_set_general t (shardIdx hash t k) _ _ _ _ hi h
    · simp only [shardEntryCount, getShard] at *
      omega
    · simp only [shardMemSum, getShard, size, memory_usage, entriesStored, memStored]
        at *
      omega
    · simp only []
      rw [replaceKey_map_fst]
      exact hndshard
  | none =>
    have hknotin := lookupKey_none_not_mem _ _ hl
    by_cases hev : needs_eviction t.max_memory_bytes t.total_memory_bytes e.total_size
      = true
    · have h1 : t.total_entries
          = (t.total_entries - shardEntryCount (getShard t (shardIdx hash t k)))
            + (getShard t (shardIdx hash t k)).data.length := by
        simp only [size, entriesStored, shardEntryCount] at hent hcle ⊢
        omega
      have h2 : t.total_memory_bytes
          = (t.total_memory_bytes - shardMemSum (getShard t (shardIdx hash t k)))
            + sumSizes (getShard t (shardIdx hash t k)).data := by
        simp only [memory_usage, memStored, shardMemSum] at hmm hmle ⊢
        omega
      have hspec := evictLoop_spec t.max_memory_bytes e.total_size
        (getShard t (shardIdx hash t k)).lru_list.length
        (getShard t (shardIdx hash t k)) t.total_memory_bytes t.total_entries
        (t.total_entries - shardEntryCount (getShard t (shardIdx hash t k)))
        (t.total_memory_bytes - shardMemSum (getShard t (shardIdx hash t k)))
        h1 h2
      simp only [set, hl, hev, if_pos, evict_if_needed]
      apply TableWF_set_general t (shardIdx hash t k) _ _ _ _ hi h
      · simp only [shardEntryCount, getShard, List.length_cons] at *
        omega
      · simp only [shardMemSum, getShard, sumSizes, List.map_cons, List.sum_cons] at *
        omega
      · simp only [List.map_cons]
        refine List.nodup_cons.mpr ⟨?_, ?_⟩
        · intro hm
          exact hknotin ((hspec.1.map Prod.fst).subset hm)
        · exact hndshard.sublist (hspec.1.map Prod.fst)
    · simp only [set, hl]
      rw [if_neg hev]
      apply TableWF_set_general t (shardIdx hash t k) _ _ _ _ hi h
      · simp only [size, memory_usage, entriesStored, memStored, shardEntryCount,
          shardMemSum, sumSizes, getShard, List.length_cons, List.map_cons,
          List.sum_cons] at *
        omega
      · simp only [size, memory_usage, entriesStored, memStored, shardEntryCount,
          shardMemSum, sumSizes, getShard, List.length_cons, List.map_cons,
          List.sum_cons] at *
        omega
      · simp only [List.map_cons]
        exact List.nodup_cons.mpr ⟨hknotin, hndshard⟩

/-- `del` preserves well-formedness. -/
theorem TableWF_del (hash : String → Nat) (t : ShardedHashTable) (k : String)
    (h : TableWF t) : TableWF (del hash t k).snd := by
  have hpos : 0 < t.shards.length := h.2.1
  have hi : shardIdx hash t k < t.shards.length := Nat.mod_lt _ hpos
  have hndshard := h.2.2 _ (getD_mem t.shards (shardIdx hash t k) Shard.empty hi)
  have hcle := f_getD_le_sum shardEntryCount t.shards (shardIdx hash t k) Shard.empty hi
  have hmle := f_getD_le_sum shardMemSum t.shards (shardIdx hash t k) Shard.empty hi
  have hent := h.1.1
  have hmm := h.1.2
  cases hl : lookupKey (getShard t (shardIdx hash t k)).data k with
  | none =>
    simp only [del, hl]
    exact h
  | some e0 =>
    have hel := eraseKey_length (getShard t (shardIdx hash t k)).data k e0 hl
    have hes := eraseKey_sumSizes (getShard t (shardIdx hash t k)).data k e0 hl
    simp only [del, hl]
    apply TableWF_set_general t (shardIdx hash t k) _ _ _ _ hi h
    · simp only [size, memory_usage, entriesStored, memStored, shardEntryCount,
        shardMemSum, sumSizes, getShard] at *
      omega
    · simp only [size, memory_usage, entriesStored, memStored, shardEntryCount,
        shardMemSum, sumSizes, getShard] at *
      omega
    · exact hndshard.sublist ((eraseKey_sublist _ _).map Prod.fst)

/-- `get` preserves well-formedness: a hit only reorders the LRU list and
touches the access timestamp, which does not change the entry's size. -/
theorem TableWF_get (hash : String → Nat) (t : ShardedHashTable) (k : String) (now : Int)
    (h : TableWF t) : TableWF (get hash t k now).snd := by
  have hpos : 0 < t.shards.length := h.2.1
  have hi : shardIdx hash t k < t.shards.length := Nat.mod_lt _ hpos
  have hndshard := h.2.2 _ (getD_mem t.shards (shardIdx hash t k) Shard.empty hi)
  cases hl : lookupKey (getShard t (shardIdx hash t k)).data k with
  | none =>
    simp only [get, hl]
    exact h
  | some e0 =>
    by_cases hx : e0.is_expired now = true
    · simp only [get, hl]
      rw [if_pos hx]
      exact h
    · have hrl := replaceKey_length (getShard t (shardIdx hash t k)).data k
        { e0 with last_accessed_ms := now }
      have hrs := replaceKey_sumSizes (getShard t (shardIdx hash t k)).data k
        { e0 with last_accessed_ms := now } e0 hl
      have hsz : CacheEntry.total_size { e0 with last_accessed_ms := now }
          = e0.total_size := rfl
      simp only [get, hl]
      rw [if_neg hx]
      apply TableWF_set_general t (shardIdx hash t k) _ _ _ _ hi h
      · simp only [shardEntryCount, getShard] at *
        omega
      · simp only [shardMemSum, sumSizes, getShard] at *
        omega
      · simp only []
        rw [replaceKey_map_fst]
        exact hndshard

/-- `compare_and_swap` preserves well-formedness. -/
theorem TableWF_cas (hash : String → Nat) (t : ShardedHashTable) (k : String)
    (expected : Int) (e : CacheEntry) (now : Int) (h : TableWF t) :
    TableWF (compare_and_swap hash t k expected e now).snd := by
  have hpos : 0 < t.shards.length := h.2.1
  have hi : shardIdx hash t k < t.shards.length := Nat.mod_lt _ hpos
  have hndshard := h.2.2 _ (getD_mem t.shards (shardIdx hash t k) Shard.empty hi)
  have hmle := f_getD_le_sum shardMemSum t.shards (shardIdx hash t k) Shard.empty hi
  have hmm := h.1.2
  cases hl : lookupKey (getShard t (shardIdx hash t k)).data k with
  | none =>
    simp only [compare_and_swap, hl]
    exact h
  | some e0 =>
    by_cases hx : e0.is_expired now = true
    · simp only [compare_and_swap, hl]
      rw [if_pos hx]
      exact h
    · by_cases hv : e0.version = expected
      · have hrl := replaceKey_length (getShard t (shardIdx hash t k)).data k
          { e with version := e0.version + 1, modified_at_ms := now,
                   last_accessed_ms := now }
        have hrs := replaceKey_sumSizes (getShard t (shardIdx hash t k)).data k
          { e with version := e0.version + 1, modified_at_ms := now,
                   last_accessed_ms := now } e0 hl
        have hole := lookupKey_size_le _ _ _ hl
        simp only [compare_and_swap, hl]
        rw [if_neg hx, if_neg (not_not_intro hv)]
        apply TableWF_set_general t (shardIdx hash t k) _ _ _ _ hi h
        · simp only [shardEntryCount, getShard] at *
          omega
        · simp only [shardMemSum, sumSizes, getShard, size, memory_usage, entriesStored,
            memStored] at *
          omega
        · simp only []
          rw [replaceKey_map_fst]
          exact hndshard
      · simp only [compare_and_swap, hl]
        rw [if_neg hx, if_pos hv]
        exact h

theorem sum_map_zero {α : Type} (l : List α) (f : α → Nat) (h : ∀ x, f x = 0) :
    (l.map f).sum = 0 := by
  induction l with
  | nil => rfl
  | cons x xs ih => simp [h, ih]

/-- `clear` zeroes the counters and empties every shard. -/
theorem TableWF_clear (t : ShardedHashTable) (h : TableWF t) : TableWF (clear t) := by
  obtain ⟨_, hpos, _⟩ := h
  refine ⟨⟨?_, ?_⟩, ?_, ?_⟩
  · simp only [clear, size, entriesStored, List.map_map]
    rw [sum_map_zero]
    intro x
    rfl
  · simp only [clear, memory_usage, memStored, List.map_map]
    rw [sum_map_zero]
    intro x
    rfl
  · simpa [clear] using hpos
  · intro s hs
    simp only [clear] at hs
    rcases List.mem_map.mp hs with ⟨a, _, rfl⟩
    simp [Shard.empty]

/-- Every engine operation preserves well-formedness. -/
theorem TableWF_runOp (hash : String → Nat) (t : ShardedHashTable) (op : EngineOp)
    (h : TableWF t) : TableWF (runOp hash t op) := by
  cases op with
  | opSet k e => exact TableWF_set hash t k e h
  | opDel k => exact TableWF_del hash t k h
  | opGet k now => exact TableWF_get hash t k now h
  | opCas k expected e now => exact TableWF_cas hash t k expected e now h
  | opClear => exact TableWF_clear t h

theorem TableWF_runOps (hash : String → Nat) (ops : List EngineOp) :
    ∀ t, TableWF t → TableWF (runOps hash t ops) := by
  induction ops with
  | nil =>
    intro t h
    exact h
  | cons op rest ih =>
    intro t h
    exact ih _ (TableWF_runOp hash t op h)

theorem TableWF_mkTable (n maxm : Nat) (h : 0 < n) : TableWF (mkTable n maxm) := by
  refine ⟨⟨?_, ?_⟩, ?_, ?_⟩
  · simp [mkTable, size, entriesStored, List.map_replicate, List.sum_replicate,
      shardEntryCount, Shard.empty]
  · simp [mkTable, memory_usage, memStored, List.map_replicate, List.sum_replicate,
      shardMemSum, sumSizes, Shard.empty]
  · simpa [mkTable] using h
  · intro s hs
    have hse : s = Shard.empty := List.eq_of_mem_replicate (by simpa [mkTable] using hs)
    rw [hse]
    simp [Shard.empty]

/-- Claim C10.  After any sequence of engine operations (set, del, get,
compare_and_swap, clear — including the evictions set performs), the global
counter read by `size()` equals the number of entries physically stored in
the shard maps, and the counter read by `memory_usage()` equals the sum of
`total_size` over those entries.  The physical counts include entries whose
expiry has passed: get, exists and compare_and_swap report them as absent
or expired but do not remove them, and no operation in the sequence does. -/
theorem C10_engine_counters (hash : String → Nat) (n maxm : Nat) (h : 0 < n)
    (ops : List EngineOp) :
    size (runOps hash (mkTable n maxm) ops)
      = entriesStored (runOps hash (mkTable n maxm) ops) ∧
    memory_usage (runOps hash (mkTable n maxm) ops)
      = memStored (runOps hash (mkTable n maxm) ops) :=
  (TableWF_runOps hash ops (mkTable n maxm) (TableWF_mkTable n maxm h)).1

/-- Witness for C10_engine_counters on a concrete operation sequence that
exercises insertion, eviction under a 400-byte cap, replacement, CAS
success and failure, get hits, clear, and an expired entry left in place. -/
theorem C10_engine_counters_witness :
    size (runOps hash0 (mkTable 1 400) wOps)
      = entriesStored (runOps hash0 (mkTable 1 400) wOps) ∧
    memory_usage (runOps hash0 (mkTable 1 400) wOps)
      = memStored (runOps hash0 (mkTable 1 400) wOps) :=
  C10_engine_counters hash0 1 400 (by decide) wOps

end DistCache
